import Mathlib

/-!
# Verification of the Mercor referral-network core

A shallow embedding of `source/referral_network.py` and `source/simulation.py`.

* `ReferralNetwork` mirrors the three mutable fields of the Python class
  (`referrals`, `reverse_referrals`, `users`); Python dicts/sets become
  association lists / duplicate-free lists.
* Python floats are modelled as rationals (`ℚ`); Python `int` as `Int`/`Nat`.
* Fallible methods (`raise ValueError`) are modelled with `Except`.
* The `while`-loops with a visited set are modelled by well-founded recursion;
  each carries a bounding list `all` used only by the termination measure
  (a branch that fires only for nodes outside `all` is provably dead for every
  call made by the embedded methods, see the `subset` hypotheses of the lemmas).
-/

set_option maxRecDepth 16000

namespace Mercor

/-- Association-list lookup, mirroring Python `dict.__getitem__` /
`dict.get`. -/
def alistLookup {α : Type} (l : List (String × α)) (k : String) : Option α :=
  match l with
  | [] => none
  | (k', v) :: rest => if k' = k then some v else alistLookup rest k

/-- Graph store state: the three fields of class `ReferralNetwork`. -/
structure ReferralNetwork where
  /-- `self.referrals : Dict[str, str]`, candidate → referrer. -/
  referrals : List (String × String)
  /-- `self.reverse_referrals : Dict[str, Set[str]]`, referrer → candidates. -/
  reverse_referrals : List (String × List String)
  /-- `self.users : Set[str]`. -/
  users : List String
deriving Repr, DecidableEq

/-- `ReferralNetwork.__init__`: the empty network. -/
def emptyNetwork : ReferralNetwork := ⟨[], [], []⟩

/-- `self.reverse_referrals[u]` with the `defaultdict(set)` default:
the fan-out adjacency (users directly referred by `u`). -/
def adjOf (g : ReferralNetwork) (u : String) : List String :=
  (alistLookup g.reverse_referrals u).getD []

/-- Add `c` to the set `self.reverse_referrals[r]` (`set.add`). -/
def revInsert (l : List (String × List String)) (r c : String) :
    List (String × List String) :=
  match l with
  | [] => [(r, [c])]
  | (k, s) :: rest =>
      if k = r then (k, if c ∈ s then s else s ++ [c]) :: rest
      else (k, s) :: revInsert rest r c

/-- `self.users.add(u)` (insertion into a set, modelled order-preserving). -/
def userAdd (l : List String) (u : String) : List String :=
  if u ∈ l then l else l ++ [u]

theorem length_filter_le_of_imp {α : Type} {p q : α → Bool} (l : List α)
    (himp : ∀ x, q x = true → p x = true) :
    (l.filter q).length ≤ (l.filter p).length := by
  induction l with
  | nil => simp
  | cons b t ih =>
      by_cases hq : q b = true
      · rw [List.filter_cons_of_pos hq, List.filter_cons_of_pos (himp b hq)]
        simpa using ih
      · by_cases hp : p b = true
        · rw [List.filter_cons_of_neg hq, List.filter_cons_of_pos hp]
          exact ih.trans (Nat.le_succ _)
        · rw [List.filter_cons_of_neg hq, List.filter_cons_of_neg hp]
          exact ih

theorem length_filter_lt_of_mem {α : Type} {p q : α → Bool} {l : List α}
    {a : α} (ha : a ∈ l) (hpa : p a = true) (hqa : q a = false)
    (himp : ∀ x, q x = true → p x = true) :
    (l.filter q).length < (l.filter p).length := by
  induction l with
  | nil => simp at ha
  | cons b t ih =>
      rcases List.mem_cons.1 ha with rfl | hat
      · rw [List.filter_cons_of_pos hpa,
          List.filter_cons_of_neg (by simp [hqa])]
        exact Nat.lt_succ_of_le (length_filter_le_of_imp t himp)
      · by_cases hq : q b = true
        · rw [List.filter_cons_of_pos hq, List.filter_cons_of_pos (himp b hq)]
          simpa using ih hat
        · by_cases hp : p b = true
          · rw [List.filter_cons_of_neg hq, List.filter_cons_of_pos hp]
            exact Nat.lt_succ_of_lt (ih hat)
          · rw [List.filter_cons_of_neg hq, List.filter_cons_of_neg hp]
            exact ih hat

/-- The stack-driven search of `ReferralNetwork._would_create_cycle`:
pop a node; if it is the target (`referrer`) report `true`; skip visited
nodes; otherwise mark it visited and push its unvisited fan-out children.
`all` bounds the visitable nodes for termination only. -/
def dfsLoop (adj : String → List String) (all : List String)
    (target : String) (visited : List String) (stack : List String) : Bool :=
  match stack with
  | [] => false
  | current :: rest =>
      if current = target then true
      else if hv : current ∈ visited then dfsLoop adj all target visited rest
      else if ha : current ∈ all then
        dfsLoop adj all target (current :: visited)
          ((adj current).filter (fun c => ¬ c ∈ current :: visited) ++ rest)
      else
        -- dead for every stack the embedded methods build (stack ⊆ all)
        dfsLoop adj all target visited rest
termination_by ((all.filter (fun x => ¬ x ∈ visited)).length, stack.length)
decreasing_by
  · apply Prod.Lex.right
    simp
  · apply Prod.Lex.left
    apply length_filter_lt_of_mem ha (by simp [hv]) (by simp)
    intro x hx
    simp only [List.mem_cons, decide_not, Bool.not_eq_true', decide_eq_false_iff_not] at hx ⊢
    intro hmem
    exact hx (Or.inr hmem)
  · apply Prod.Lex.right
    simp

/-- Every node a traversal starting at `start` can ever reach: `start`
together with every candidate stored in `reverse_referrals`. -/
def allNodes (g : ReferralNetwork) (start : String) : List String :=
  start :: g.reverse_referrals.flatMap Prod.snd

/-- `ReferralNetwork._would_create_cycle`: search from `candidate` along
fan-out edges for `referrer`. -/
def would_create_cycle (g : ReferralNetwork) (referrer candidate : String) :
    Bool :=
  dfsLoop (adjOf g) (allNodes g candidate) referrer [] [candidate]

/-- The distinct `ValueError`s raised by `add_referral`. -/
inductive AddError where
  | InvalidInput
  | SelfReferral
  | DuplicateReferrer
  | CycleDetected
deriving Repr, DecidableEq

/-- `ReferralNetwork.add_referral`: validate, then update all three fields. -/
def add_referral (g : ReferralNetwork) (referrer candidate : String) :
    Except AddError ReferralNetwork :=
  if referrer = "" ∨ candidate = "" then .error .InvalidInput
  else if referrer = candidate then .error .SelfReferral
  else if (alistLookup g.referrals candidate).isSome then
    .error .DuplicateReferrer
  else if would_create_cycle g referrer candidate then .error .CycleDetected
  else .ok
    { referrals := (candidate, referrer) :: g.referrals
      reverse_referrals := revInsert g.reverse_referrals referrer candidate
      users := userAdd (userAdd g.users referrer) candidate }

/-- Run a sequence of `add_referral` calls from the empty network; a rejected
call leaves the store unchanged (the exception propagates to the caller,
`self` is untouched). -/
def runOps (ops : List (String × String)) : ReferralNetwork :=
  ops.foldl
    (fun g rc =>
      match add_referral g rc.1 rc.2 with
      | .ok g' => g'
      | .error _ => g)
    emptyNetwork

/-! ## Reachability along fan-out edges (specification-level) -/

/-- `reachNB adj n a b`: there is a walk of exactly `n` fan-out edges from
`a` to `b`. -/
def reachNB (adj : String → List String) : Nat → String → String → Bool
  | 0, a, b => a = b
  | n + 1, a, b => (adj a).any (fun x => reachNB adj n x b)

/-- `b` is reachable from `a` along fan-out edges (including `a` itself). -/
def Reaches (adj : String → List String) (a b : String) : Prop :=
  ∃ n, reachNB adj n a b = true

/-- Walks of exactly `n` edges following the candidate → referrer index. -/
def refReachNB (g : ReferralNetwork) : Nat → String → String → Bool
  | 0, a, b => a = b
  | n + 1, a, b =>
      match alistLookup g.referrals a with
      | some r => refReachNB g n r b
      | none => false

theorem reachNB_zero_iff (adj : String → List String) (a b : String) :
    reachNB adj 0 a b = true ↔ a = b := by
  simp [reachNB]

theorem reachNB_succ_iff (adj : String → List String) (n : Nat)
    (a b : String) :
    reachNB adj (n + 1) a b = true ↔
      ∃ x ∈ adj a, reachNB adj n x b = true := by
  simp [reachNB]

theorem reachNB_snoc {adj : String → List String} {n : Nat} {a y b : String}
    (h : reachNB adj n a y = true) (hb : b ∈ adj y) :
    reachNB adj (n + 1) a b = true := by
  induction n generalizing a with
  | zero =>
      rw [reachNB_zero_iff] at h
      subst h
      exact (reachNB_succ_iff _ _ _ _).2 ⟨b, hb, (reachNB_zero_iff _ _ _).2 rfl⟩
  | succ m ih =>
      obtain ⟨x, hx, hxy⟩ := (reachNB_succ_iff _ _ _ _).1 h
      exact (reachNB_succ_iff _ _ _ _).2 ⟨x, hx, ih hxy⟩

theorem reachNB_last_decomp {adj : String → List String} {n : Nat}
    {a b : String} (h : reachNB adj (n + 1) a b = true) :
    ∃ y, reachNB adj n a y = true ∧ b ∈ adj y := by
  induction n generalizing a with
  | zero =>
      obtain ⟨x, hx, hxb⟩ := (reachNB_succ_iff _ _ _ _).1 h
      rw [reachNB_zero_iff] at hxb
      subst hxb
      exact ⟨a, (reachNB_zero_iff _ _ _).2 rfl, hx⟩
  | succ m ih =>
      obtain ⟨x, hx, hxb⟩ := (reachNB_succ_iff _ _ _ _).1 h
      obtain ⟨y, hy, hby⟩ := ih hxb
      exact ⟨y, (reachNB_succ_iff _ _ _ _).2 ⟨x, hx, hy⟩, hby⟩

theorem reachNB_trans {adj : String → List String} {m n : Nat}
    {a b c : String} (h₁ : reachNB adj m a b = true)
    (h₂ : reachNB adj n b c = true) :
    reachNB adj (m + n) a c = true := by
  induction m generalizing a with
  | zero =>
      rw [reachNB_zero_iff] at h₁
      subst h₁
      simpa using h₂
  | succ k ih =>
      obtain ⟨x, hx, hxb⟩ := (reachNB_succ_iff _ _ _ _).1 h₁
      have := ih hxb
      have : reachNB adj (k + n + 1) a c = true :=
        (reachNB_succ_iff _ _ _ _).2 ⟨x, hx, this⟩
      simpa [Nat.succ_add] using this

theorem reachNB_mono {adj adj' : String → List String}
    (hsub : ∀ x, adj x ⊆ adj' x) {n : Nat} {a b : String}
    (h : reachNB adj n a b = true) : reachNB adj' n a b = true := by
  induction n generalizing a with
  | zero => simpa [reachNB] using h
  | succ m ih =>
      obtain ⟨x, hx, hxb⟩ := (reachNB_succ_iff _ _ _ _).1 h
      exact (reachNB_succ_iff _ _ _ _).2 ⟨x, hsub a hx, ih hxb⟩

/-! ## Association-list bookkeeping -/

theorem alistLookup_cons {α : Type} (k' : String) (v : α)
    (l : List (String × α)) (k : String) :
    alistLookup ((k', v) :: l) k =
      if k' = k then some v else alistLookup l k := rfl

theorem alistLookup_eq_none_iff {α : Type} (l : List (String × α))
    (k : String) :
    alistLookup l k = none ↔ k ∉ l.map Prod.fst := by
  induction l with
  | nil => simp [alistLookup]
  | cons p rest ih =>
      obtain ⟨k', v⟩ := p
      by_cases h : k' = k
      · subst h
        simp [alistLookup]
      · have hstep : alistLookup ((k', v) :: rest) k = alistLookup rest k := by
          simp [alistLookup, h]
        rw [hstep, ih]
        simp only [List.map_cons, List.mem_cons, not_or]
        constructor
        · exact fun hk => ⟨fun heq => h heq.symm, hk⟩
        · exact fun hk => hk.2

theorem alistLookup_isSome_of_mem {α : Type} {l : List (String × α)}
    {k : String} {v : α} (h : (k, v) ∈ l) :
    (alistLookup l k).isSome = true := by
  induction l with
  | nil => simp at h
  | cons p rest ih =>
      obtain ⟨k', v'⟩ := p
      rcases List.mem_cons.1 h with heq | hmem
      · cases heq
        simp [alistLookup]
      · by_cases hk : k' = k <;> simp [alistLookup, hk, ih hmem]

theorem alistLookup_revInsert_self (l : List (String × List String))
    (r c : String) :
    alistLookup (revInsert l r c) r =
      some (if c ∈ (alistLookup l r).getD [] then (alistLookup l r).getD []
            else (alistLookup l r).getD [] ++ [c]) := by
  induction l with
  | nil => simp [revInsert, alistLookup]
  | cons p rest ih =>
      obtain ⟨k, s⟩ := p
      by_cases hk : k = r
      · subst hk
        simp [revInsert, alistLookup]
      · simp [revInsert, hk, alistLookup, ih]

theorem alistLookup_revInsert_ne (l : List (String × List String))
    (r c u : String) (hu : u ≠ r) :
    alistLookup (revInsert l r c) u = alistLookup l u := by
  induction l with
  | nil => simp [revInsert, alistLookup, Ne.symm hu]
  | cons p rest ih =>
      obtain ⟨k, s⟩ := p
      by_cases hk : k = r
      · subst hk
        simp [revInsert, alistLookup, Ne.symm hu]
      · by_cases hku : k = u <;> simp [revInsert, hk, alistLookup, hku, ih, hu]

/-! ## The store invariant maintained by `add_referral` -/

/-- Invariant of every reachable `ReferralNetwork` state. -/
structure NetInv (g : ReferralNetwork) : Prop where
  /-- the primary index is a map: each candidate appears at most once. -/
  keysNodup : (g.referrals.map Prod.fst).Nodup
  /-- the two indices describe the same edge set. -/
  consistency : ∀ r c, c ∈ adjOf g r ↔ alistLookup g.referrals c = some r
  /-- each stored candidate set has no duplicates (it is a Python `set`). -/
  childNodup : ∀ r, (adjOf g r).Nodup
  /-- no self-referral is ever stored. -/
  noSelf : ∀ c r, alistLookup g.referrals c = some r → c ≠ r
  /-- no fan-out walk of positive length returns to its starting node. -/
  acyclic : ∀ a n, reachNB (adjOf g) (n + 1) a a = false
  /-- the user set has no duplicates (it is a Python `set`). -/
  usersNodup : g.users.Nodup

theorem netInv_empty : NetInv emptyNetwork := by
  refine ⟨by simp [emptyNetwork], ?_, ?_, ?_, ?_, by simp [emptyNetwork]⟩
  · intro r c
    simp [adjOf, emptyNetwork, alistLookup]
  · intro r
    simp [adjOf, emptyNetwork, alistLookup]
  · intro c r h
    simp [emptyNetwork, alistLookup] at h
  · intro a n
    have : adjOf emptyNetwork a = [] := by simp [adjOf, emptyNetwork, alistLookup]
    cases h : reachNB (adjOf emptyNetwork) (n + 1) a a
    · rfl
    · obtain ⟨x, hx, -⟩ := (reachNB_succ_iff _ _ _ _).1 h
      rw [this] at hx
      simp at hx

theorem alistLookup_some_mem {α : Type} {l : List (String × α)} {k : String}
    {v : α} (h : alistLookup l k = some v) : (k, v) ∈ l := by
  induction l with
  | nil => simp [alistLookup] at h
  | cons p rest ih =>
      obtain ⟨k', v'⟩ := p
      by_cases hk : k' = k
      · subst hk
        simp [alistLookup] at h
        simp [h]
      · simp [alistLookup, hk] at h
        exact List.mem_cons_of_mem _ (ih h)

theorem userAdd_nodup {l : List String} (h : l.Nodup) (u : String) :
    (userAdd l u).Nodup := by
  unfold userAdd
  by_cases hu : u ∈ l
  · simpa [hu]
  · simpa [hu] using List.Nodup.append h (by simp) (by simpa using hu)

theorem mem_userAdd (l : List String) (u x : String) :
    x ∈ userAdd l u ↔ x ∈ l ∨ x = u := by
  unfold userAdd
  by_cases hu : u ∈ l
  · simp only [if_pos hu]
    constructor
    · exact Or.inl
    · rintro (h | rfl) <;> [exact h; exact hu]
  · simp [if_neg hu]

/-! ## Completeness of the cycle-detection search -/

/-- A visited set that is closed under the adjacency and avoids `target`
witnesses that `target` is unreachable from each of its members. -/
theorem not_reaches_of_closed {adj : String → List String}
    {S : List String} {target : String}
    (hcl : ∀ v ∈ S, ∀ c ∈ adj v, c ∈ S) (ht : target ∉ S) :
    ∀ v ∈ S, ¬ Reaches adj v target := by
  intro v hv hr
  obtain ⟨n, hn⟩ := hr
  induction n generalizing v with
  | zero =>
      rw [reachNB_zero_iff] at hn
      subst hn
      exact ht hv
  | succ m ih =>
      obtain ⟨x, hx, hxt⟩ := (reachNB_succ_iff _ _ _ _).1 hn
      exact ih x (hcl v hv x hx) hxt

/-- If the search of `_would_create_cycle` reports `false`, `target` is
unreachable from every stack node and every visited node. -/
theorem dfsLoop_false_not_reaches (adj : String → List String)
    (all : List String) (target : String) (visited stack : List String)
    (hav : ∀ x y, y ∈ adj x → y ∈ all) :
    (∀ x ∈ stack, x ∈ all) →
    target ∉ visited →
    (∀ v ∈ visited, ∀ c ∈ adj v, c ∈ visited ∨ c ∈ stack) →
    dfsLoop adj all target visited stack = false →
    (∀ s ∈ stack, ¬ Reaches adj s target) ∧
      (∀ v ∈ visited, ¬ Reaches adj v target) := by
  induction visited, stack using dfsLoop.induct adj all target with
  | case1 visited =>
      intro _ ht hcl _
      refine ⟨by simp, ?_⟩
      exact not_reaches_of_closed (fun v hv c hc => by
        rcases hcl v hv c hc with h | h
        · exact h
        · simp at h) ht
  | case2 visited rest =>
      intro _ _ _ hfalse
      rw [dfsLoop] at hfalse
      simp at hfalse
  | case3 visited current rest hne hv ih =>
      intro hsub ht hcl hfalse
      rw [dfsLoop] at hfalse
      simp only [if_neg hne, dif_pos hv] at hfalse
      have := ih (fun x hx => hsub x (List.mem_cons_of_mem _ hx)) ht
        (fun v hvv c hc => by
          rcases hcl v hvv c hc with h | h
          · exact Or.inl h
          · rcases List.mem_cons.1 h with rfl | h
            · exact Or.inl hv
            · exact Or.inr h)
        hfalse
      refine ⟨?_, this.2⟩
      intro s hs
      rcases List.mem_cons.1 hs with rfl | hs
      · exact this.2 s hv
      · exact this.1 s hs
  | case4 visited current rest hne hv ha ih =>
      intro hsub ht hcl hfalse
      rw [dfsLoop] at hfalse
      simp only [if_neg hne, dif_neg hv, dif_pos ha] at hfalse
      have hsub2 : ∀ x ∈ (adj current).filter
          (fun c => decide (c ∉ current :: visited)) ++ rest, x ∈ all := by
        intro x hx
        rcases List.mem_append.1 hx with hx | hx
        · exact hav current x (List.mem_of_mem_filter hx)
        · exact hsub x (List.mem_cons_of_mem _ hx)
      have ht2 : target ∉ current :: visited := by
        intro h
        rcases List.mem_cons.1 h with rfl | h
        · exact hne rfl
        · exact ht h
      have hcl2 : ∀ v ∈ current :: visited, ∀ d ∈ adj v,
          d ∈ current :: visited ∨
            d ∈ (adj current).filter
              (fun c => decide (c ∉ current :: visited)) ++ rest := by
        intro v hvv d hd
        rcases List.mem_cons.1 hvv with rfl | hvv
        · by_cases hdm : d ∈ v :: visited
          · exact Or.inl hdm
          · refine Or.inr (List.mem_append.2 (Or.inl ?_))
            exact List.mem_filter.2 ⟨hd, by simpa using hdm⟩
        · rcases hcl v hvv d hd with h | h
          · exact Or.inl (List.mem_cons_of_mem _ h)
          · rcases List.mem_cons.1 h with rfl | h
            · exact Or.inl (List.mem_cons_self _ _)
            · exact Or.inr (List.mem_append.2 (Or.inr h))
      have := ih hsub2 ht2 hcl2 hfalse
      refine ⟨?_, fun v hvv => this.2 v (List.mem_cons_of_mem _ hvv)⟩
      intro s hs
      rcases List.mem_cons.1 hs with rfl | hs
      · exact this.2 s (List.mem_cons_self _ _)
      · exact this.1 s (List.mem_append.2 (Or.inr hs))
  | case5 visited current rest hne hv ha ih =>
      intro hsub _ _ _
      exact absurd (hsub current (List.mem_cons_self _ _)) ha

theorem adj_sub_allNodes (g : ReferralNetwork) (start : String) :
    ∀ x y, y ∈ adjOf g x → y ∈ allNodes g start := by
  intro x y hy
  unfold adjOf at hy
  cases hl : alistLookup g.reverse_referrals x with
  | none => simp [hl] at hy
  | some s =>
      rw [hl] at hy
      simp only [Option.getD_some] at hy
      have : (x, s) ∈ g.reverse_referrals := alistLookup_some_mem hl
      unfold allNodes
      exact List.mem_cons_of_mem _ (List.mem_flatMap.2 ⟨(x, s), this, hy⟩)

/-- Completeness of `_would_create_cycle`: a `false` answer really means
`referrer` is not reachable from `candidate` along existing fan-out edges. -/
theorem would_create_cycle_false (g : ReferralNetwork)
    (referrer candidate : String)
    (h : would_create_cycle g referrer candidate = false) :
    ¬ Reaches (adjOf g) candidate referrer := by
  have := dfsLoop_false_not_reaches (adjOf g) (allNodes g candidate) referrer
    [] [candidate] (adj_sub_allNodes g candidate)
    (by
      intro x hx
      simp only [List.mem_singleton] at hx
      subst hx
      exact List.mem_cons_self _ _)
    (by simp) (by simp) h
  exact this.1 candidate (by simp)

/-! ## Insertion of one fan-out edge preserves acyclicity -/

theorem reach_new_decomp {adj adj' : String → List String} {r c : String}
    (hadj : ∀ x, adj' x = if x = r then adj x ++ [c] else adj x) :
    ∀ n a b, reachNB adj' n a b = true →
      reachNB adj n a b = true ∨
        ∃ i j, reachNB adj i a r = true ∧ reachNB adj' j c b = true := by
  intro n
  induction n with
  | zero =>
      intro a b h
      rw [reachNB_zero_iff] at h
      exact Or.inl ((reachNB_zero_iff _ _ _).2 h)
  | succ m ih =>
      intro a b h
      obtain ⟨x, hx, hxb⟩ := (reachNB_succ_iff _ _ _ _).1 h
      rw [hadj a] at hx
      by_cases har : a = r
      · rw [if_pos har] at hx
        rcases List.mem_append.1 hx with hx | hx
        · rcases ih x b hxb with hold | ⟨i, j, hir, hjc⟩
          · exact Or.inl ((reachNB_succ_iff _ _ _ _).2 ⟨x, hx, hold⟩)
          · exact Or.inr ⟨i + 1, j,
              (reachNB_succ_iff _ _ _ _).2 ⟨x, hx, hir⟩, hjc⟩
        · simp only [List.mem_singleton] at hx
          subst hx
          exact Or.inr ⟨0, m, by
            rw [reachNB_zero_iff]; exact har, hxb⟩
      · rw [if_neg har] at hx
        rcases ih x b hxb with hold | ⟨i, j, hir, hjc⟩
        · exact Or.inl ((reachNB_succ_iff _ _ _ _).2 ⟨x, hx, hold⟩)
        · exact Or.inr ⟨i + 1, j,
            (reachNB_succ_iff _ _ _ _).2 ⟨x, hx, hir⟩, hjc⟩

/-- Appending the fan-out edge `r → c` keeps the graph acyclic as long as
`r` was not already reachable from `c`. -/
theorem acyclic_insert {adj adj' : String → List String} {r c : String}
    (hadj : ∀ x, adj' x = if x = r then adj x ++ [c] else adj x)
    (hold : ∀ a n, reachNB adj (n + 1) a a = false)
    (hnr : ¬ Reaches adj c r) :
    ∀ a n, reachNB adj' (n + 1) a a = false := by
  intro a n
  cases hcyc : reachNB adj' (n + 1) a a with
  | false => rfl
  | true =>
      exfalso
      rcases reach_new_decomp hadj (n + 1) a a hcyc with hcold | ⟨i, j, hir, hjc⟩
      · rw [hold a n] at hcold
        exact Bool.false_ne_true hcold
      · rcases reach_new_decomp hadj j c a hjc with hca | ⟨i', j', hcr, -⟩
        · exact hnr ⟨j + i, reachNB_trans hca hir⟩
        · exact hnr ⟨i', hcr⟩

/-- Splitting `add_referral g r c = .ok g'` into the facts the guards give. -/
theorem add_referral_ok_elim {g : ReferralNetwork} {r c : String}
    {g' : ReferralNetwork} (h : add_referral g r c = .ok g') :
    r ≠ "" ∧ c ≠ "" ∧ r ≠ c ∧ alistLookup g.referrals c = none ∧
      would_create_cycle g r c = false ∧
      g' = { referrals := (c, r) :: g.referrals
             reverse_referrals := revInsert g.reverse_referrals r c
             users := userAdd (userAdd g.users r) c } := by
  unfold add_referral at h
  by_cases h1 : r = "" ∨ c = ""
  · rw [if_pos h1] at h
    exact absurd h (by simp)
  · rw [if_neg h1] at h
    push_neg at h1
    by_cases h2 : r = c
    · rw [if_pos h2] at h
      exact absurd h (by simp)
    · rw [if_neg h2] at h
      by_cases h3 : (alistLookup g.referrals c).isSome = true
      · rw [if_pos h3] at h
        exact absurd h (by simp)
      · rw [if_neg h3] at h
        by_cases h4 : would_create_cycle g r c = true
        · rw [if_pos h4] at h
          exact absurd h (by simp)
        · rw [if_neg h4] at h
          refine ⟨h1.1, h1.2, h2, ?_, by simpa using h4, by
            cases h
            rfl⟩
          cases hl : alistLookup g.referrals c with
          | none => rfl
          | some v => rw [hl] at h3; simp at h3

/-- After a successful insertion the fan-out adjacency changes only at the
referrer, where the new candidate is appended. -/
theorem adjOf_after_ok {g : ReferralNetwork} {r c : String}
    {g' : ReferralNetwork} (hinv : NetInv g)
    (h : add_referral g r c = .ok g') :
    ∀ x, adjOf g' x = if x = r then adjOf g x ++ [c] else adjOf g x := by
  obtain ⟨-, -, -, hfresh, -, hg'⟩ := add_referral_ok_elim h
  have hcnot : c ∉ adjOf g r := by
    intro hc
    rw [(hinv.consistency r c).1 hc] at hfresh
    exact Option.noConfusion hfresh
  intro x
  by_cases hx : x = r
  · subst hx
    rw [if_pos rfl]
    unfold adjOf
    rw [hg']
    simp only [alistLookup_revInsert_self]
    rw [if_neg (by simpa [adjOf] using hcnot)]
    simp [adjOf]
  · rw [if_neg hx]
    unfold adjOf
    rw [hg']
    simp only [alistLookup_revInsert_ne _ _ _ _ hx]

/-- `add_referral` preserves the store invariant. -/
theorem netInv_add {g : ReferralNetwork} (hinv : NetInv g) {r c : String}
    {g' : ReferralNetwork} (h : add_referral g r c = .ok g') : NetInv g' := by
  obtain ⟨hr0, hc0, hrc, hfresh, hcyc, hg'⟩ := add_referral_ok_elim h
  have hadj := adjOf_after_ok hinv h
  have hcnotkeys : c ∉ g.referrals.map Prod.fst :=
    (alistLookup_eq_none_iff _ _).1 hfresh
  have hcnot : c ∉ adjOf g r := by
    intro hc
    rw [(hinv.consistency r c).1 hc] at hfresh
    exact Option.noConfusion hfresh
  have hlookup' : ∀ x, alistLookup g'.referrals x =
      if c = x then some r else alistLookup g.referrals x := by
    intro x
    rw [hg']
    rfl
  constructor
  · rw [hg']
    simp only [List.map_cons, List.nodup_cons]
    refine ⟨?_, hinv.keysNodup⟩
    intro hc
    exact hcnotkeys hc
  · intro r' c'
    rw [hlookup' c', hadj r']
    by_cases hr' : r' = r
    · subst hr'
      rw [if_pos rfl]
      constructor
      · intro hc'
        rcases List.mem_append.1 hc' with hc' | hc'
        · have : c ≠ c' := by
            intro heq
            exact hcnot (heq ▸ hc')
          rw [if_neg this]
          exact (hinv.consistency r' c').1 hc'
        · simp only [List.mem_singleton] at hc'
          subst hc'
          rw [if_pos rfl]
      · intro hc'
        by_cases heq : c = c'
        · subst heq
          exact List.mem_append.2 (Or.inr (by simp))
        · rw [if_neg heq] at hc'
          exact List.mem_append.2 (Or.inl ((hinv.consistency r' c').2 hc'))
    · rw [if_neg hr']
      constructor
      · intro hc'
        have hl := (hinv.consistency r' c').1 hc'
        have : c ≠ c' := by
          intro heq
          rw [← heq] at hl
          rw [hl] at hfresh
          exact Option.noConfusion hfresh
        rw [if_neg this]
        exact hl
      · intro hc'
        by_cases heq : c = c'
        · rw [if_pos heq] at hc'
          have : r = r' := by
            injection hc'
          exact absurd this.symm hr'
        · rw [if_neg heq] at hc'
          exact (hinv.consistency r' c').2 hc'
  · intro r'
    rw [hadj r']
    by_cases hr' : r' = r
    · rw [if_pos hr']
      subst hr'
      exact List.Nodup.append (hinv.childNodup r') (by simp)
        (by simpa using hcnot)
    · rw [if_neg hr']
      exact hinv.childNodup r'
  · intro c' r' hl
    rw [hlookup' c'] at hl
    by_cases heq : c = c'
    · rw [if_pos heq] at hl
      subst heq
      injection hl with hl
      subst hl
      exact fun hcr => hrc hcr.symm
    · rw [if_neg heq] at hl
      exact hinv.noSelf c' r' hl
  · exact acyclic_insert hadj hinv.acyclic
      (would_create_cycle_false g r c hcyc)
  · rw [hg']
    exact userAdd_nodup (userAdd_nodup hinv.usersNodup r) c

/-- Every state reachable through a sequence of calls satisfies the
invariant. -/
theorem netInv_runOps (ops : List (String × String)) : NetInv (runOps ops) := by
  suffices h : ∀ g, NetInv g → NetInv (ops.foldl
      (fun g rc =>
        match add_referral g rc.1 rc.2 with
        | .ok g' => g'
        | .error _ => g) g) by
    exact h emptyNetwork netInv_empty
  induction ops with
  | nil => exact fun g hg => hg
  | cons rc rest ih =>
      intro g hg
      simp only [List.foldl_cons]
      apply ih
      cases hcall : add_referral g rc.1 rc.2 with
      | ok g' => exact netInv_add hg hcall
      | error e => exact hg

/-- Under the two-index consistency, walks along the candidate → referrer
index are exactly reversed fan-out walks. -/
theorem refReachNB_iff_reachNB {g : ReferralNetwork} (hinv : NetInv g) :
    ∀ n a b, refReachNB g n a b = true ↔ reachNB (adjOf g) n b a = true := by
  intro n
  induction n with
  | zero =>
      intro a b
      simp [refReachNB, reachNB, eq_comm]
  | succ m ih =>
      intro a b
      constructor
      · intro h
        unfold refReachNB at h
        cases hl : alistLookup g.referrals a with
        | none =>
            rw [hl] at h
            exact absurd h (by simp)
        | some r =>
            rw [hl] at h
            exact reachNB_snoc ((ih r b).1 h) ((hinv.consistency r a).2 hl)
      · intro h
        obtain ⟨y, hy, hay⟩ := reachNB_last_decomp h
        have hl : alistLookup g.referrals a = some y :=
          (hinv.consistency y a).1 hay
        unfold refReachNB
        rw [hl]
        exact (ih y b).2 hy

/-- **C1.** Every state reachable through accepted insertions is a forest of
in-trees: no candidate is its own referrer, the candidate → referrer index
is a map (each candidate occurs at most once), and following
candidate → referrer edges never returns to a starting node; moreover every
call that would violate one of these conditions (self-referral, second
referrer for a candidate, or an edge closing a directed cycle) is
rejected with an error. -/
theorem c1_forest_invariant (ops : List (String × String)) :
    ((∀ c r, alistLookup (runOps ops).referrals c = some r → c ≠ r) ∧
     (((runOps ops).referrals.map Prod.fst).Nodup) ∧
     (∀ a n, refReachNB (runOps ops) (n + 1) a a = false)) ∧
    (∀ r c,
      (r = c ∨ (alistLookup (runOps ops).referrals c).isSome = true ∨
        (∃ n, refReachNB (runOps ops) n r c = true)) →
      ∃ e, add_referral (runOps ops) r c = .error e) := by
  have hinv := netInv_runOps ops
  set g := runOps ops with hg
  refine ⟨⟨hinv.noSelf, hinv.keysNodup, ?_⟩, ?_⟩
  · intro a n
    cases hcyc : refReachNB g (n + 1) a a with
    | false => rfl
    | true =>
        have := (refReachNB_iff_reachNB hinv (n + 1) a a).1 hcyc
        rw [hinv.acyclic a n] at this
        exact this.symm
  · intro r c hviol
    unfold add_referral
    by_cases h1 : r = "" ∨ c = ""
    · exact ⟨.InvalidInput, by rw [if_pos h1]⟩
    · rw [if_neg h1]
      by_cases h2 : r = c
      · exact ⟨.SelfReferral, by rw [if_pos h2]⟩
      · rw [if_neg h2]
        by_cases h3 : (alistLookup g.referrals c).isSome = true
        · exact ⟨.DuplicateReferrer, by rw [if_pos h3]⟩
        · rw [if_neg h3]
          have hcyc : would_create_cycle g r c = true := by
            rcases hviol with h | h | ⟨n, hn⟩
            · exact absurd h h2
            · exact absurd h h3
            · cases hwc : would_create_cycle g r c with
              | true => rfl
              | false =>
                  exact absurd
                    ⟨n, (refReachNB_iff_reachNB hinv n r c).1 hn⟩
                    (would_create_cycle_false g r c hwc)
          exact ⟨.CycleDetected, by rw [if_pos hcyc]⟩

/-- Evaluation of a one-edge history, used to instantiate theorems about
reachable states at a concrete store. -/
theorem runOps_ab : runOps [("a", "b")] =
    { referrals := [("b", "a")], reverse_referrals := [("a", ["b"])],
      users := ["a", "b"] } := by
  simp [runOps, add_referral, would_create_cycle, dfsLoop, adjOf, allNodes,
    emptyNetwork, alistLookup, revInsert, userAdd]

/-- Witness for C1: after inserting `a → b`, the call `add_referral b a`
would close a directed cycle and is indeed rejected. -/
theorem c1_forest_invariant_witness :
    ∃ e, add_referral (runOps [("a", "b")]) "b" "a" = .error e :=
  (c1_forest_invariant [("a", "b")]).2 "b" "a"
    (Or.inr (Or.inr ⟨1, by rw [runOps_ab]; decide⟩))

/-- The state of `self` observed after a call of `add_referral`: Python
mutates the three fields only after every check has passed, so a raised
`ValueError` leaves the object untouched. -/
def add_referral_state (g : ReferralNetwork) (r c : String) :
    ReferralNetwork :=
  match add_referral g r c with
  | .ok g' => g'
  | .error _ => g

/-- **C2.** `add_referral` is atomic: on any failure the store (primary
index, reverse index, and user set) is exactly as before the call; on
success all three updates happen. -/
theorem c2_add_referral_atomic (g : ReferralNetwork) (r c : String) :
    (∀ e, add_referral g r c = .error e →
      (add_referral_state g r c).referrals = g.referrals ∧
      (add_referral_state g r c).reverse_referrals = g.reverse_referrals ∧
      (add_referral_state g r c).users = g.users) ∧
    (∀ g', add_referral g r c = .ok g' →
      add_referral_state g r c = g' ∧
      g'.referrals = (c, r) :: g.referrals ∧
      g'.reverse_referrals = revInsert g.reverse_referrals r c ∧
      g'.users = userAdd (userAdd g.users r) c) := by
  constructor
  · intro e he
    unfold add_referral_state
    rw [he]
    exact ⟨rfl, rfl, rfl⟩
  · intro g' hok
    refine ⟨by unfold add_referral_state; rw [hok], ?_⟩
    obtain ⟨-, -, -, -, -, hEq⟩ := add_referral_ok_elim hok
    rw [hEq]
    exact ⟨rfl, rfl, rfl⟩

/-- Witness for C2 at concrete inputs: a rejected self-referral leaves the
empty store untouched, and an accepted call updates all three fields. -/
theorem c2_add_referral_atomic_witness :
    (add_referral_state emptyNetwork "a" "a").referrals =
        emptyNetwork.referrals ∧
      (add_referral_state emptyNetwork "a" "b").users = ["a", "b"] := by
  constructor
  · exact ((c2_add_referral_atomic emptyNetwork "a" "a").1 .SelfReferral
      (by rfl)).1
  · have hok : add_referral emptyNetwork "a" "b" =
        .ok { referrals := [("b", "a")],
              reverse_referrals := [("a", ["b"])], users := ["a", "b"] } := by
      simp [add_referral, would_create_cycle, dfsLoop, adjOf, allNodes,
        emptyNetwork, alistLookup, revInsert, userAdd]
    rw [((c2_add_referral_atomic emptyNetwork "a" "b").2 _ hok).1]

/-! ## The two breadth-first traversals of the Reachability Module -/

/-- The queue loop of `ReferralNetwork._get_reachable_users`: pop from the
front, skip nodes already in the `reachable` set, otherwise add the node and
enqueue its fan-out children that are not yet in the set.  `all` bounds the
visitable nodes for termination only. -/
def bfsReach (adj : String → List String) (all : List String)
    (visited : List String) (queue : List String) : List String :=
  match queue with
  | [] => visited
  | current :: rest =>
      if hv : current ∈ visited then bfsReach adj all visited rest
      else if ha : current ∈ all then
        bfsReach adj all (current :: visited)
          (rest ++ (adj current).filter (fun c => ¬ c ∈ current :: visited))
      else
        -- dead for every queue the embedded methods build (queue ⊆ all)
        bfsReach adj all visited rest
termination_by ((all.filter (fun x => ¬ x ∈ visited)).length, queue.length)
decreasing_by
  · apply Prod.Lex.right
    simp
  · apply Prod.Lex.left
    apply length_filter_lt_of_mem ha (by simp [hv]) (by simp)
    intro x hx
    simp only [List.mem_cons, decide_not, Bool.not_eq_true',
      decide_eq_false_iff_not] at hx ⊢
    intro hmem
    exact hx (Or.inr hmem)
  · apply Prod.Lex.right
    simp

/-- The queue loop of `ReferralNetwork.get_total_referral_count`: identical
traversal, but it counts one per enqueued child instead of collecting the
visited set. -/
def bfsCount (adj : String → List String) (all : List String)
    (visited : List String) (queue : List String) (count : Nat) : Nat :=
  match queue with
  | [] => count
  | current :: rest =>
      if hv : current ∈ visited then bfsCount adj all visited rest count
      else if ha : current ∈ all then
        bfsCount adj all (current :: visited)
          (rest ++ (adj current).filter (fun c => ¬ c ∈ current :: visited))
          (count +
            ((adj current).filter (fun c => ¬ c ∈ current :: visited)).length)
      else
        -- dead for every queue the embedded methods build (queue ⊆ all)
        bfsCount adj all visited rest count
termination_by ((all.filter (fun x => ¬ x ∈ visited)).length, queue.length)
decreasing_by
  · apply Prod.Lex.right
    simp
  · apply Prod.Lex.left
    apply length_filter_lt_of_mem ha (by simp [hv]) (by simp)
    intro x hx
    simp only [List.mem_cons, decide_not, Bool.not_eq_true',
      decide_eq_false_iff_not] at hx ⊢
    intro hmem
    exact hx (Or.inr hmem)
  · apply Prod.Lex.right
    simp

/-- `ReferralNetwork.get_total_referral_count`: 0 for an unknown user,
otherwise BFS from `user` counting enqueued nodes. -/
def get_total_referral_count (g : ReferralNetwork) (user : String) : Nat :=
  if user ∈ g.users then bfsCount (adjOf g) (allNodes g user) [] [user] 0
  else 0

/-- `ReferralNetwork._get_reachable_users`: empty set for an unknown user,
otherwise the BFS-visited set with `user` itself discarded. -/
def get_reachable_users (g : ReferralNetwork) (user : String) : List String :=
  if user ∈ g.users then
    (bfsReach (adjOf g) (allNodes g user) [] [user]).erase user
  else []

theorem bfsReach_nodup (adj : String → List String) (all : List String) :
    ∀ visited queue, visited.Nodup →
      (bfsReach adj all visited queue).Nodup := by
  intro visited queue
  induction visited, queue using bfsReach.induct adj all with
  | case1 visited =>
      intro h
      rw [bfsReach]
      exact h
  | case2 visited current rest hv ih =>
      intro h
      rw [bfsReach]
      rw [dif_pos hv]
      exact ih h
  | case3 visited current rest hv ha ih =>
      intro h
      rw [bfsReach]
      rw [dif_neg hv, dif_pos ha]
      exact ih (List.nodup_cons.2 ⟨hv, h⟩)
  | case4 visited current rest hv ha ih =>
      intro h
      rw [bfsReach]
      rw [dif_neg hv, dif_neg ha]
      exact ih h

theorem mem_bfsReach (adj : String → List String) (all : List String)
    (hav : ∀ x y, y ∈ adj x → y ∈ all) :
    ∀ visited queue, (∀ x ∈ queue, x ∈ all) →
      ∀ x, x ∈ visited ∨ x ∈ queue → x ∈ bfsReach adj all visited queue := by
  intro visited queue
  induction visited, queue using bfsReach.induct adj all with
  | case1 visited =>
      intro _ x hx
      rw [bfsReach]
      rcases hx with hx | hx
      · exact hx
      · simp at hx
  | case2 visited current rest hv ih =>
      intro hsub x hx
      rw [bfsReach, dif_pos hv]
      refine ih (fun y hy => hsub y (List.mem_cons_of_mem _ hy)) x ?_
      rcases hx with hx | hx
      · exact Or.inl hx
      · rcases List.mem_cons.1 hx with rfl | hx
        · exact Or.inl hv
        · exact Or.inr hx
  | case3 visited current rest hv ha ih =>
      intro hsub x hx
      rw [bfsReach, dif_neg hv, dif_pos ha]
      have hsub2 : ∀ y ∈ rest ++ (adj current).filter
          (fun c => decide (c ∉ current :: visited)), y ∈ all := by
        intro y hy
        rcases List.mem_append.1 hy with hy | hy
        · exact hsub y (List.mem_cons_of_mem _ hy)
        · exact hav current y (List.mem_of_mem_filter hy)
      refine ih hsub2 x ?_
      rcases hx with hx | hx
      · exact Or.inl (List.mem_cons_of_mem _ hx)
      · rcases List.mem_cons.1 hx with rfl | hx
        · exact Or.inl (List.mem_cons_self _ _)
        · exact Or.inr (List.mem_append.2 (Or.inl hx))
  | case4 visited current rest hv ha ih =>
      intro hsub x hx
      exact absurd (hsub current (List.mem_cons_self _ _)) ha

/-- The counting identity between the two traversals: in a store whose
fan-out children lists are duplicate-free and where each node has at most
one fan-out parent (`par`), every node is enqueued at most once, so the
enqueue counter of `get_total_referral_count` counts exactly the nodes the
set-collecting traversal discovers beyond its starting state. -/
theorem bfsCount_eq_bfsReach (adj : String → List String)
    (all : List String) (par : String → Option String) (start : String)
    (hav : ∀ x y, y ∈ adj x → y ∈ all)
    (hpar : ∀ p x, x ∈ adj p ↔ par x = some p)
    (hchild : ∀ p, (adj p).Nodup) :
    ∀ visited queue count,
      visited.Nodup →
      queue.Nodup →
      (∀ x ∈ queue, x ∉ visited) →
      (∀ x ∈ queue, x ∈ all) →
      (∀ x ∈ queue, x = start ∨ ∃ p, par x = some p ∧ p ∈ visited) →
      (start ∈ visited ∨ (queue = [start] ∧ visited = [])) →
      bfsCount adj all visited queue count + visited.length + queue.length =
        count + (bfsReach adj all visited queue).length := by
  intro visited queue count
  induction visited, queue, count using bfsCount.induct adj all with
  | case1 visited count =>
      intro _ _ _ _ _ _
      rw [bfsCount, bfsReach]
      simp
  | case2 visited count current rest hv ih =>
      intro _ _ hdisj _ _ _
      exact absurd hv (hdisj current (List.mem_cons_self _ _))
  | case3 visited count current rest hv ha ih =>
      intro hnv hnq hdisj hsub hpari hstart
      rw [bfsCount, dif_neg hv, dif_pos ha]
      rw [bfsReach, dif_neg hv, dif_pos ha]
      set kids := (adj current).filter
        (fun c => decide (c ∉ current :: visited)) with hkidsdef
      have hkids : ∀ y ∈ kids, y ∈ adj current ∧ y ∉ current :: visited := by
        intro y hy
        rw [hkidsdef] at hy
        have h1 := List.mem_of_mem_filter hy
        have h2 := List.of_mem_filter hy
        simp only [decide_eq_true_eq] at h2
        exact ⟨h1, h2⟩
      have hrest_nodup : rest.Nodup := (List.nodup_cons.1 hnq).2
      have hcur_rest : current ∉ rest := (List.nodup_cons.1 hnq).1
      have a1 : (current :: visited).Nodup := List.nodup_cons.2 ⟨hv, hnv⟩
      have a2 : (rest ++ kids).Nodup := by
        refine List.Nodup.append hrest_nodup
          (hkidsdef ▸ List.Nodup.filter _ (hchild current)) ?_
        intro y hyr hyk
        obtain ⟨hyadj, hynot⟩ := hkids y hyk
        have hpy : par y = some current := (hpar current y).1 hyadj
        rcases hpari y (List.mem_cons_of_mem _ hyr) with hys | ⟨p, hp, hpv⟩
        · rcases hstart with hst | ⟨hq, -⟩
          · exact hynot (List.mem_cons_of_mem _ (hys ▸ hst))
          · have hrnil : rest = [] := by
              injection hq
            rw [hrnil] at hyr
            simp at hyr
        · rw [hpy] at hp
          injection hp with hp
          exact hv (hp ▸ hpv)
      have a3 : ∀ x ∈ rest ++ kids, x ∉ current :: visited := by
        intro y hy
        rcases List.mem_append.1 hy with hy | hy
        · intro hmem
          rcases List.mem_cons.1 hmem with heq | hmem
          · exact hcur_rest (heq ▸ hy)
          · exact hdisj y (List.mem_cons_of_mem _ hy) hmem
        · exact (hkids y hy).2
      have a4 : ∀ x ∈ rest ++ kids, x ∈ all := by
        intro y hy
        rcases List.mem_append.1 hy with hy | hy
        · exact hsub y (List.mem_cons_of_mem _ hy)
        · exact hav current y (hkids y hy).1
      have a5 : ∀ x ∈ rest ++ kids,
          x = start ∨ ∃ p, par x = some p ∧ p ∈ current :: visited := by
        intro y hy
        rcases List.mem_append.1 hy with hy | hy
        · rcases hpari y (List.mem_cons_of_mem _ hy) with h | ⟨p, hp, hpv⟩
          · exact Or.inl h
          · exact Or.inr ⟨p, hp, List.mem_cons_of_mem _ hpv⟩
        · exact Or.inr ⟨current, (hpar current y).1 (hkids y hy).1,
            List.mem_cons_self _ _⟩
      have a6 : start ∈ current :: visited ∨
          (rest ++ kids = [start] ∧ current :: visited = []) := by
        rcases hstart with hst | ⟨hq, -⟩
        · exact Or.inl (List.mem_cons_of_mem _ hst)
        · have hcs : current = start := by
            injection hq
          exact Or.inl (hcs ▸ List.mem_cons_self _ _)
      have hIH := ih a1 a2 a3 a4 a5 a6
      simp only [List.length_cons, List.length_append] at hIH ⊢
      omega
  | case4 visited count current rest hv ha ih =>
      intro _ _ _ hsub _ _
      exact absurd (hsub current (List.mem_cons_self _ _)) ha

/-- **C3.** In every store state reachable by accepted insertions,
`get_total_referral_count u` (TotalReach) equals the cardinality of
`_get_reachable_users u` (ReachableSet) for every user `u`, known or
unknown. -/
theorem c3_total_reach_eq_card (ops : List (String × String)) (u : String) :
    get_total_referral_count (runOps ops) u =
      (get_reachable_users (runOps ops) u).length := by
  have hinv := netInv_runOps ops
  set g := runOps ops with hg
  unfold get_total_referral_count get_reachable_users
  by_cases hu : u ∈ g.users
  · rw [if_pos hu, if_pos hu]
    have hav := adj_sub_allNodes g u
    have hqsub : ∀ x ∈ [u], x ∈ allNodes g u := by
      intro x hx
      simp only [List.mem_singleton] at hx
      subst hx
      exact List.mem_cons_self _ _
    have hcnt := bfsCount_eq_bfsReach (adjOf g) (allNodes g u)
      (fun x => alistLookup g.referrals x) u hav
      (fun p x => hinv.consistency p x) hinv.childNodup
      [] [u] 0 (by simp) (by simp) (by simp) hqsub
      (by
        intro x hx
        simp only [List.mem_singleton] at hx
        subst hx
        exact Or.inl rfl)
      (Or.inr ⟨rfl, rfl⟩)
    have humem : u ∈ bfsReach (adjOf g) (allNodes g u) [] [u] :=
      mem_bfsReach _ _ hav [] [u] hqsub u (Or.inr (by simp))
    rw [List.length_erase_of_mem humem]
    simp only [List.length_nil, List.length_singleton] at hcnt
    omega
  · rw [if_neg hu, if_neg hu]
    simp

/-! ## Top referrers -/

/-- Python list slicing `xs[:k]` for an arbitrary (possibly negative) `k`:
a negative `k` keeps all but the last `|k|` elements. -/
def pySlice {α : Type} (xs : List α) (k : Int) : List α :=
  if 0 ≤ k then xs.take k.toNat
  else xs.take ((xs.length : Int) + k).toNat

/-- `ReferralNetwork.get_top_referrers`: collect `(user, total_count)` for
every user with positive total reach, sort by count descending (Python's
stable `sort(key=..., reverse=True)`), and return the slice `[:k]`. -/
def get_top_referrers (g : ReferralNetwork) (k : Int) :
    List (String × Nat) :=
  let referrer_counts := g.users.filterMap (fun user =>
    if 0 < get_total_referral_count g user
    then some (user, get_total_referral_count g user) else none)
  pySlice (referrer_counts.mergeSort (fun a b => b.2 ≤ a.2)) k

theorem length_filterMap_ite {α β : Type} (l : List α) (p : α → Prop)
    [DecidablePred p] (h : α → β) :
    (l.filterMap (fun a => if p a then some (h a) else none)).length =
      l.countP (fun a => decide (p a)) := by
  induction l with
  | nil => simp
  | cons b t ih =>
      by_cases hb : p b <;>
        simp [List.filterMap_cons, hb, List.countP_cons, ih]

/-- **C7 (amended).** `get_top_referrers` with `k = 0` yields the empty
list (a negative `k` instead drops the last `|k|` sorted entries — Python
slice semantics); users with total reach 0 never appear; and as soon as `k`
is at least the number of users with positive total reach, the result
contains exactly the users with positive total reach, each paired with its
total reach, sorted by total reach descending. -/
theorem c7_top_referrers (g : ReferralNetwork) :
    (get_top_referrers g 0 = []) ∧
    (∀ k : Int, ∀ p ∈ get_top_referrers g k, 0 < p.2) ∧
    (∀ k : Int,
      ((g.users.countP
        (fun u => decide (0 < get_total_referral_count g u)) : Int)) ≤ k →
      ((∀ u n, (u, n) ∈ get_top_referrers g k ↔
          (u ∈ g.users ∧ n = get_total_referral_count g u ∧ 0 < n)) ∧
        (get_top_referrers g k).Sorted (fun a b => b.2 ≤ a.2))) := by
  set entries := g.users.filterMap (fun user =>
    if 0 < get_total_referral_count g user
    then some (user, get_total_referral_count g user) else none)
    with hentries
  have hperm : (entries.mergeSort (fun a b => b.2 ≤ a.2)).Perm entries :=
    List.mergeSort_perm entries _
  have hmem_entries : ∀ u n, (u, n) ∈ entries ↔
      (u ∈ g.users ∧ n = get_total_referral_count g u ∧ 0 < n) := by
    intro u n
    rw [hentries]
    rw [List.mem_filterMap]
    constructor
    · rintro ⟨user, huser, hsome⟩
      by_cases hpos : 0 < get_total_referral_count g user
      · rw [if_pos hpos] at hsome
        injection hsome with hsome
        injection hsome with h1 h2
        subst h1
        subst h2
        exact ⟨huser, rfl, hpos⟩
      · rw [if_neg hpos] at hsome
        exact absurd hsome (by simp)
    · rintro ⟨huser, rfl, hpos⟩
      exact ⟨u, huser, by rw [if_pos hpos]⟩
  refine ⟨?_, ?_, ?_⟩
  · unfold get_top_referrers pySlice
    simp
  · intro k p hp
    unfold get_top_referrers at hp
    have hmem : p ∈ entries.mergeSort (fun a b => b.2 ≤ a.2) := by
      unfold pySlice at hp
      split at hp <;> exact (List.take_sublist _ _).subset hp
    obtain ⟨u, n⟩ := p
    exact ((hmem_entries u n).1 (hperm.subset hmem)).2.2
  · intro k hk
    have hlen : (entries.mergeSort (fun a b => b.2 ≤ a.2)).length =
        entries.length := hperm.length_eq
    have hcnt : entries.length = g.users.countP
        (fun u => decide (0 < get_total_referral_count g u)) := by
      rw [hentries]
      exact length_filterMap_ite g.users _ _
    have hk0 : (0 : Int) ≤ k := le_trans (by positivity) hk
    have htake : get_top_referrers g k =
        entries.mergeSort (fun a b => b.2 ≤ a.2) := by
      unfold get_top_referrers pySlice
      rw [if_pos hk0]
      refine List.take_of_length_le ?_
      rw [hlen, hcnt]
      omega
    have hsorted : (entries.mergeSort (fun a b => b.2 ≤ a.2)).Sorted
        (fun a b => b.2 ≤ a.2) := by
      have := @List.sorted_mergeSort (String × Nat)
        (fun a b => decide (b.2 ≤ a.2))
        (fun a b c hab hbc => by
          simp only [decide_eq_true_eq] at hab hbc ⊢
          omega)
        (fun a b => by
          simp only [Bool.or_eq_true, decide_eq_true_eq]
          omega)
        entries
      refine this.imp ?_
      intro a b h
      simpa using h
    rw [htake]
    constructor
    · intro u n
      rw [List.Perm.mem_iff hperm]
      exact hmem_entries u n
    · exact hsorted

/-- A two-edge history (`alice → bob → charlie`) evaluated to its store. -/
theorem runOps_chain : runOps [("alice", "bob"), ("bob", "charlie")] =
    { referrals := [("charlie", "bob"), ("bob", "alice")],
      reverse_referrals := [("alice", ["bob"]), ("bob", ["charlie"])],
      users := ["alice", "bob", "charlie"] } := by
  simp [runOps, add_referral, would_create_cycle, dfsLoop, adjOf, allNodes,
    emptyNetwork, alistLookup, revInsert, userAdd]

/-- Counterexample to C7 as stated: with the store `alice → bob → charlie`
and `k = -1`, Python's slice `[:-1]` keeps the first of the two positive
entries, so the result is not empty. -/
theorem c7_counterexample :
    get_top_referrers (runOps [("alice", "bob"), ("bob", "charlie")])
      (-1) ≠ [] := by
  rw [runOps_chain]
  have h : get_top_referrers
      { referrals := [("charlie", "bob"), ("bob", "alice")],
        reverse_referrals := [("alice", ["bob"]), ("bob", ["charlie"])],
        users := ["alice", "bob", "charlie"] } (-1) = [("alice", 2)] := by
    simp [get_top_referrers, get_total_referral_count, bfsCount, adjOf,
      allNodes, alistLookup, pySlice, List.mergeSort]
  rw [h]
  simp

/-- Witness for C7 at a concrete store and a concrete large `k`. -/
theorem c7_top_referrers_witness :
    ∀ u n, (u, n) ∈ get_top_referrers
        (runOps [("alice", "bob"), ("bob", "charlie")]) 5 ↔
      (u ∈ (runOps [("alice", "bob"), ("bob", "charlie")]).users ∧
        n = get_total_referral_count
          (runOps [("alice", "bob"), ("bob", "charlie")]) u ∧ 0 < n) :=
  ((c7_top_referrers (runOps [("alice", "bob"), ("bob", "charlie")])).2.2 5
    (by
      rw [runOps_chain]
      simp [get_total_referral_count, bfsCount, adjOf, allNodes,
        alistLookup])).1

/-! ## Growth simulator (`source/simulation.py`)

Python floats become rationals; the stream of `random.random()` draws of the
stochastic variant becomes an explicit function `rand : Nat → ℚ` consumed in
order through a running index. -/

/-- `NetworkSimulator.initial_active_referrers`. -/
def initial_active_referrers : Nat := 100

/-- `NetworkSimulator.max_referrals_per_referrer`. -/
def max_referrals_per_referrer : Nat := 10

/-- The `ValueError`s raised by `simulate` / `simulate_expected`. -/
inductive SimError where
  | InvalidProbability
  | InvalidDuration
deriving Repr, DecidableEq

/-- The inner per-referrer loop of one day of `NetworkSimulator.simulate`:
a slot at capacity is skipped (it will be deactivated), otherwise it draws
`rand i < p` once; a success increments the slot count and the day tally.
Returns the updated counts, the day tally and the next draw index. -/
def simDay (p : ℚ) (rand : Nat → ℚ) :
    List Nat → Nat → List Nat × Nat × Nat
  | [], i => ([], 0, i)
  | c :: rest, i =>
      if max_referrals_per_referrer ≤ c then
        let (cs, d, i2) := simDay p rand rest i
        (c :: cs, d, i2)
      else if rand i < p then
        let (cs, d, i2) := simDay p rand rest (i + 1)
        ((c + 1) :: cs, d + 1, i2)
      else
        let (cs, d, i2) := simDay p rand rest (i + 1)
        (c :: cs, d, i2)

/-- The day loop of `simulate`: run one day, deactivate the slots that
reached capacity, extend the cumulative list. -/
def simulateDays (p : ℚ) (rand : Nat → ℚ) :
    Nat → List Nat → Nat → Nat → List Nat
  | 0, _, _, _ => []
  | d + 1, counts, i, total =>
      let (newCounts, daily, i2) := simDay p rand counts i
      (total + daily) ::
        simulateDays p rand d
          (newCounts.filter (fun c => c < max_referrals_per_referrer)) i2
          (total + daily)

/-- `NetworkSimulator.simulate`. -/
def simulate (p : ℚ) (days : Int) (rand : Nat → ℚ) :
    Except SimError (List Nat) :=
  if ¬(0 ≤ p ∧ p ≤ 1) then .error .InvalidProbability
  else if days < 0 then .error .InvalidDuration
  else .ok (simulateDays p rand days.toNat
    (List.replicate initial_active_referrers 0) 0 0)

/-- The inner per-referrer loop of one day of
`NetworkSimulator.simulate_expected`: every active slot contributes exactly
`p` to the day tally and to its own count.  (In the Python loop the keys of
`referrer_counts` are always exactly `range(active_referrers)`, because all
slots carry the same count and deactivate together, so iterating the count
list is faithful.) -/
def expectedDay (p : ℚ) : List ℚ → List ℚ × ℚ
  | [] => ([], 0)
  | c :: rest =>
      if (max_referrals_per_referrer : ℚ) ≤ c then
        let (cs, d) := expectedDay p rest
        (c :: cs, d)
      else
        let (cs, d) := expectedDay p rest
        ((c + p) :: cs, d + p)

/-- The day loop of `simulate_expected`. -/
def expectedDays (p : ℚ) : Nat → List ℚ → ℚ → List ℚ
  | 0, _, _ => []
  | d + 1, counts, total =>
      let (newCounts, daily) := expectedDay p counts
      (total + daily) ::
        expectedDays p d
          (newCounts.filter (fun c => c < (max_referrals_per_referrer : ℚ)))
          (total + daily)

/-- `NetworkSimulator.simulate_expected`. -/
def simulate_expected (p : ℚ) (days : Int) : Except SimError (List ℚ) :=
  if ¬(0 ≤ p ∧ p ≤ 1) then .error .InvalidProbability
  else if days < 0 then .error .InvalidDuration
  else .ok (expectedDays p days.toNat
    (List.replicate initial_active_referrers 0) 0)

/-- The cumulative total after the day loop of `simulate_expected` has run
for `d` days (the last element of the returned list, or the starting total
when no day runs). -/
def expectedTotal (p : ℚ) : Nat → List ℚ → ℚ → ℚ
  | 0, _, total => total
  | d + 1, counts, total =>
      let (newCounts, daily) := expectedDay p counts
      expectedTotal p d
        (newCounts.filter (fun c => c < (max_referrals_per_referrer : ℚ)))
        (total + daily)

/-- The final value of `SimulateExpected(p, days)` (0 when `days = 0`). -/
def finalExpected (p : ℚ) (days : Nat) : ℚ :=
  expectedTotal p days (List.replicate initial_active_referrers 0) 0

theorem expectedDays_getLastD (p : ℚ) :
    ∀ (d : Nat) (counts : List ℚ) (total : ℚ),
      (expectedDays p d counts total).getLastD total =
        expectedTotal p d counts total := by
  intro d
  induction d with
  | zero => intro counts total; rfl
  | succ k ih =>
      intro counts total
      rw [expectedDays, expectedTotal]
      rw [List.getLastD_cons]
      exact ih _ _

theorem expectedDays_length (p : ℚ) :
    ∀ (d : Nat) (counts : List ℚ) (total : ℚ),
      (expectedDays p d counts total).length = d := by
  intro d
  induction d with
  | zero => intro counts total; rfl
  | succ k ih =>
      intro counts total
      rw [expectedDays]
      simpa using ih _ _

theorem expectedDay_daily_nonneg (p : ℚ) (hp : 0 ≤ p) :
    ∀ counts : List ℚ, 0 ≤ (expectedDay p counts).2 := by
  intro counts
  induction counts with
  | nil => simp [expectedDay]
  | cons c rest ih =>
      rw [expectedDay]
      split
      · simpa using ih
      · simp only
        have : (expectedDay p rest).2 + p =
            ((expectedDay p rest).2 + p) := rfl
        positivity

theorem expectedDays_chain (p : ℚ) (hp : 0 ≤ p) :
    ∀ (d : Nat) (counts : List ℚ) (total : ℚ),
      (total :: expectedDays p d counts total).Chain' (· ≤ ·) := by
  intro d
  induction d with
  | zero => intro counts total; simp [expectedDays]
  | succ k ih =>
      intro counts total
      rw [expectedDays]
      refine List.Chain'.cons ?_ (ih _ _)
      have := expectedDay_daily_nonneg p hp counts
      linarith

theorem simDay_daily_nonneg (p : ℚ) (rand : Nat → ℚ) :
    ∀ (counts : List Nat) (i : Nat), 0 ≤ (simDay p rand counts i).2.1 := by
  intro counts
  induction counts with
  | nil => intro i; simp [simDay]
  | cons c rest ih =>
      intro i
      rw [simDay]
      split
      · simpa using ih i
      · split <;> simp

theorem simulateDays_chain (p : ℚ) (rand : Nat → ℚ) :
    ∀ (d : Nat) (counts : List Nat) (i total : Nat),
      (total :: simulateDays p rand d counts i total).Chain' (· ≤ ·) := by
  intro d
  induction d with
  | zero => intro counts i total; simp [simulateDays]
  | succ k ih =>
      intro counts i total
      rw [simulateDays]
      exact List.Chain'.cons (by omega) (ih _ _ _)

theorem expectedTotal_le (p : ℚ) (hp : 0 ≤ p) :
    ∀ (d : Nat) (counts : List ℚ) (total : ℚ),
      total ≤ expectedTotal p d counts total := by
  intro d
  induction d with
  | zero => intro counts total; exact le_refl _
  | succ k ih =>
      intro counts total
      rw [expectedTotal]
      refine le_trans ?_ (ih _ _)
      have := expectedDay_daily_nonneg p hp counts
      linarith

theorem expectedTotal_succ_mono (p : ℚ) (hp : 0 ≤ p) :
    ∀ (d : Nat) (counts : List ℚ) (total : ℚ),
      expectedTotal p d counts total ≤
        expectedTotal p (d + 1) counts total := by
  intro d
  induction d with
  | zero =>
      intro counts total
      simp only [expectedTotal]
      have := expectedDay_daily_nonneg p hp counts
      linarith
  | succ k ih =>
      intro counts total
      rw [expectedTotal]
      conv_rhs => rw [expectedTotal]
      exact ih _ _

/-- The final cumulative expectation is monotone in the number of days. -/
theorem finalExpected_mono (p : ℚ) (hp : 0 ≤ p) :
    Monotone (finalExpected p) := by
  refine monotone_nat_of_le_succ ?_
  intro d
  exact expectedTotal_succ_mono p hp d _ _

/-- **C9.** Both simulation variants return non-decreasing cumulative
sequences (the stochastic one for every sequence of random draws), and the
final value of `simulate_expected` is non-decreasing in `days` for fixed
`p` in `[0, 1]`. -/
theorem c9_monotone (p : ℚ) (days : Int) (rand : Nat → ℚ) :
    (∀ l, simulate p days rand = .ok l → l.Chain' (· ≤ ·)) ∧
    (∀ l, simulate_expected p days = .ok l → l.Chain' (· ≤ ·)) ∧
    (0 ≤ p → p ≤ 1 → ∀ d1 d2 : Nat, d1 ≤ d2 →
      finalExpected p d1 ≤ finalExpected p d2) := by
  refine ⟨?_, ?_, ?_⟩
  · intro l hl
    unfold simulate at hl
    split at hl
    · exact absurd hl (by simp)
    · split at hl
      · exact absurd hl (by simp)
      · injection hl with hl
        rw [← hl]
        exact (simulateDays_chain p rand _ _ _ _).tail
  · intro l hl
    unfold simulate_expected at hl
    split at hl
    · exact absurd hl (by simp)
    · rename_i hp
      rw [not_not] at hp
      split at hl
      · exact absurd hl (by simp)
      · injection hl with hl
        rw [← hl]
        exact (expectedDays_chain p hp.1 _ _ _).tail
  · intro hp0 _ d1 d2 hd
    exact finalExpected_mono p hp0 hd

/-- Witness for C9 at concrete inputs. -/
theorem c9_monotone_witness :
    (simulateDays 1 (fun _ => 0) (2 : Int).toNat
      (List.replicate initial_active_referrers 0) 0 0).Chain' (· ≤ ·) ∧
    (expectedDays (1/2) (2 : Int).toNat
      (List.replicate initial_active_referrers 0) 0).Chain' (· ≤ ·) ∧
    finalExpected (1/2) 1 ≤ finalExpected (1/2) 2 := by
  refine ⟨?_, ?_, ?_⟩
  · refine (c9_monotone 1 2 (fun _ => 0)).1 _ ?_
    unfold simulate
    rw [if_neg (by norm_num), if_neg (by norm_num)]
  · refine (c9_monotone (1/2) 2 (fun _ => 0)).2.1 _ ?_
    unfold simulate_expected
    rw [if_neg (by norm_num), if_neg (by norm_num)]
  · exact (c9_monotone (1/2) 0 (fun _ => 0)).2.2 (by norm_num) (by norm_num)
      1 2 (by omega)

/-! ## At `p = 1` the stochastic and the expected simulation coincide -/

theorem simDay_expectedDay_one (rand : Nat → ℚ) (hr : ∀ i, rand i < 1) :
    ∀ (counts : List Nat) (i : Nat),
      expectedDay 1 (counts.map (Nat.cast : Nat → ℚ)) =
        ((simDay 1 rand counts i).1.map (Nat.cast : Nat → ℚ),
          ((simDay 1 rand counts i).2.1 : ℚ)) := by
  intro counts
  induction counts with
  | nil =>
      intro i
      simp [simDay, expectedDay]
  | cons c rest ih =>
      intro i
      by_cases hc : max_referrals_per_referrer ≤ c
      · have hcq : (max_referrals_per_referrer : ℚ) ≤ (c : ℚ) := by
          exact_mod_cast hc
        rcases hsim : simDay 1 rand rest i with ⟨cs, dd, i2⟩
        have hexp := ih i
        rw [hsim] at hexp
        rw [List.map_cons, simDay, expectedDay, if_pos hc, if_pos hcq, hsim,
          hexp]
        rfl
      · have hcq : ¬ (max_referrals_per_referrer : ℚ) ≤ (c : ℚ) := by
          exact_mod_cast hc
        rcases hsim : simDay 1 rand rest (i + 1) with ⟨cs, dd, i2⟩
        have hexp := ih (i + 1)
        rw [hsim] at hexp
        rw [List.map_cons, simDay, expectedDay, if_neg hc, if_neg hcq,
          if_pos (hr i), hsim, hexp]
        simp only [List.map_cons, Prod.mk.injEq, List.cons.injEq]
        push_cast
        simp

theorem simulateDays_expectedDays_one (rand : Nat → ℚ)
    (hr : ∀ i, rand i < 1) :
    ∀ (d : Nat) (counts : List Nat) (i total : Nat),
      expectedDays 1 d (counts.map (Nat.cast : Nat → ℚ)) (total : ℚ) =
        (simulateDays 1 rand d counts i total).map (Nat.cast : Nat → ℚ) := by
  intro d
  induction d with
  | zero =>
      intro counts i total
      simp [expectedDays, simulateDays]
  | succ k ih =>
      intro counts i total
      rcases hsim : simDay 1 rand counts i with ⟨cs, dd, i2⟩
      have hday := simDay_expectedDay_one rand hr counts i
      rw [hsim] at hday
      rw [expectedDays, simulateDays, hsim, hday]
      simp only [List.map_cons, List.cons.injEq]
      have hfil : (cs.map (Nat.cast : Nat → ℚ)).filter
          (fun c => c < (max_referrals_per_referrer : ℚ)) =
          (cs.filter (fun c => c < max_referrals_per_referrer)).map
            (Nat.cast : Nat → ℚ) := by
        rw [List.filter_map]
        refine congrArg _ (List.filter_congr ?_)
        intro n _
        simp [Function.comp, Nat.cast_lt]
      constructor
      · push_cast
        ring
      · rw [hfil]
        have htot : ((total : ℚ) + (dd : ℚ)) = ((total + dd : Nat) : ℚ) := by
          push_cast
          ring
        rw [htot]
        exact ih (cs.filter (fun c => c < max_referrals_per_referrer)) i2
          (total + dd)

/-- **C10.** With `p = 1` every Bernoulli trial with a draw in `[0, 1)`
succeeds, so for every sequence of draws the stochastic `simulate` returns,
elementwise as numbers, exactly the deterministic `simulate_expected`. -/
theorem c10_simulate_one_eq_expected (days : Int) (rand : Nat → ℚ)
    (hr : ∀ i, 0 ≤ rand i ∧ rand i < 1) :
    ∀ l, simulate 1 days rand = .ok l →
      simulate_expected 1 days = .ok (l.map (Nat.cast : Nat → ℚ)) := by
  intro l hl
  unfold simulate at hl
  rw [if_neg (by norm_num)] at hl
  unfold simulate_expected
  rw [if_neg (by norm_num)]
  by_cases hd : days < 0
  · rw [if_pos hd] at hl
    exact absurd hl (by simp)
  · rw [if_neg hd] at hl
    rw [if_neg hd]
    injection hl with hl
    rw [← hl]
    refine congrArg Except.ok ?_
    have h0 : (List.replicate initial_active_referrers (0 : Nat)).map
        (Nat.cast : Nat → ℚ) =
          List.replicate initial_active_referrers (0 : ℚ) := by
      simp
    have hmain := simulateDays_expectedDays_one rand (fun i => (hr i).2)
      days.toNat (List.replicate initial_active_referrers 0) 0 0
    rw [h0] at hmain
    simpa using hmain

/-- Witness for C10 at `days = 2` with the constant draw `0`. -/
theorem c10_simulate_one_eq_expected_witness :
    simulate_expected 1 2 = .ok
      ((simulateDays 1 (fun _ => 0) (2 : Int).toNat
        (List.replicate initial_active_referrers 0) 0 0).map
          (Nat.cast : Nat → ℚ)) := by
  refine c10_simulate_one_eq_expected 2 (fun _ => 0)
    (fun i => by norm_num) _ ?_
  unfold simulate
  rw [if_neg (by norm_num), if_neg (by norm_num)]

/-! ## Closed form of the expected simulation while below capacity -/

theorem filter_replicate_cond {α : Type} (p : α → Bool) (m : Nat) (c : α) :
    (List.replicate m c).filter p =
      if p c then List.replicate m c else [] := by
  induction m with
  | zero => split <;> simp
  | succ k ih =>
      by_cases hc : p c = true <;>
        simp [List.replicate_succ, List.filter_cons, hc, ih]

theorem expectedTotal_nil (p : ℚ) : ∀ (d : Nat) (t : ℚ),
    expectedTotal p d [] t = t := by
  intro d
  induction d with
  | zero => intro t; rfl
  | succ k ih =>
      intro t
      rw [expectedTotal]
      simp only [expectedDay, List.filter_nil]
      rw [ih]
      ring

theorem expectedDay_replicate (p : ℚ) (m : Nat) (c : ℚ) :
    expectedDay p (List.replicate m c) =
      if (max_referrals_per_referrer : ℚ) ≤ c then (List.replicate m c, 0)
      else (List.replicate m (c + p), m * p) := by
  induction m with
  | zero => by_cases hc : (max_referrals_per_referrer : ℚ) ≤ c <;>
      simp [expectedDay, hc]
  | succ k ih =>
      rw [List.replicate_succ, expectedDay]
      by_cases hc : (max_referrals_per_referrer : ℚ) ≤ c
      · rw [if_pos hc, ih, if_pos hc, if_pos hc, ← List.replicate_succ]
        rfl
      · rw [if_neg hc, ih, if_neg hc, if_neg hc]
        refine Prod.ext rfl ?_
        show (k : ℚ) * p + p = ((k + 1 : Nat) : ℚ) * p
        push_cast
        ring

theorem expectedTotal_replicate (p : ℚ) (hp : 0 < p) (m : Nat) :
    ∀ (d j : Nat) (t : ℚ),
      (∀ k : Nat, j ≤ k → k < j + d →
        (k : ℚ) * p < (max_referrals_per_referrer : ℚ)) →
      expectedTotal p d (List.replicate m ((j : ℚ) * p)) t =
        t + m * d * p := by
  intro d
  induction d with
  | zero =>
      intro j t _
      rw [expectedTotal]
      push_cast
      ring
  | succ dd ih =>
      intro j t h
      have hjp : (j : ℚ) * p < max_referrals_per_referrer :=
        h j le_rfl (by omega)
      rw [expectedTotal, expectedDay_replicate, if_neg (not_le.2 hjp)]
      simp only
      have hcast : (j : ℚ) * p + p = ((j + 1 : Nat) : ℚ) * p := by
        push_cast
        ring
      rw [hcast, filter_replicate_cond]
      by_cases hnext : ((j + 1 : Nat) : ℚ) * p < (max_referrals_per_referrer : ℚ)
      · rw [if_pos (by simpa using hnext)]
        rw [ih (j + 1) (t + m * p) (fun k hk1 hk2 => h k (by omega) (by omega))]
        push_cast
        ring
      · cases dd with
        | zero =>
            rw [if_neg (by simpa using hnext), expectedTotal_nil]
            push_cast
            ring
        | succ ddd =>
            exact absurd (h (j + 1) (by omega) (by omega)) hnext

/-- While every active day stays below capacity, the final expectation is
exactly `100 · days · p`. -/
theorem finalExpected_linear (p : ℚ) (hp : 0 < p) (d : Nat)
    (h : ∀ k : Nat, k < d → (k : ℚ) * p < (max_referrals_per_referrer : ℚ)) :
    finalExpected p d = 100 * d * p := by
  unfold finalExpected
  have h0 : (List.replicate initial_active_referrers (0 : ℚ)) =
      List.replicate initial_active_referrers (((0 : Nat) : ℚ) * p) := by
    norm_num
  rw [h0, expectedTotal_replicate p hp initial_active_referrers d 0 0
    (fun k _ hk2 => h k (by omega))]
  norm_num [initial_active_referrers]

/-! ## `days_to_target` -/

/-- The `while left < right` binary-search loop of
`NetworkSimulator.days_to_target`, probing `simulate_expected p mid`;
an empty probe result counts as below target. -/
def dttLoop (p : ℚ) (target_total : Int) :
    Nat → Nat → Except SimError Nat
  | left, right =>
    if h : left < right then
      let mid := (left + right) / 2
      match simulate_expected p (mid : Int) with
      | .error e => .error e
      | .ok simulation_result =>
          if simulation_result = [] then
            dttLoop p target_total (mid + 1) right
          else if (target_total : ℚ) ≤ simulation_result.getLastD 0 then
            dttLoop p target_total left mid
          else
            dttLoop p target_total (mid + 1) right
    else .ok left
termination_by left right => right - left
decreasing_by
  all_goals omega

/-- `NetworkSimulator.days_to_target` (`max_days = 1000` inlined as in the
source). -/
def days_to_target (p : ℚ) (target_total : Int) :
    Except SimError (Option Nat) :=
  if target_total ≤ 0 then .ok (some 0)
  else if p ≤ 0 then .ok none
  else
    match dttLoop p target_total 0 1000 with
    | .error e => .error e
    | .ok left =>
        if left ≤ 1000 then
          match simulate_expected p (left : Int) with
          | .error e => .error e
          | .ok final_simulation =>
              if final_simulation ≠ [] ∧
                  (target_total : ℚ) ≤ final_simulation.getLastD 0 then
                .ok (some left)
              else .ok none
        else .ok none

theorem simulate_expected_ok (p : ℚ) (hp0 : 0 ≤ p) (hp1 : p ≤ 1) (d : Nat) :
    simulate_expected p (d : Int) = .ok (expectedDays p d
      (List.replicate initial_active_referrers 0) 0) := by
  unfold simulate_expected
  rw [if_neg (by simp [hp0, hp1]), if_neg (by omega)]
  simp

/-- The probe value `simulation_result.getLastD 0` is `finalExpected p d`. -/
theorem expectedDays_run_getLastD (p : ℚ) (d : Nat) :
    (expectedDays p d (List.replicate initial_active_referrers 0) 0).getLastD
      0 = finalExpected p d :=
  expectedDays_getLastD p d _ 0

theorem expectedDays_run_eq_nil_iff (p : ℚ) (d : Nat) :
    (expectedDays p d (List.replicate initial_active_referrers 0) 0 = []) ↔
      d = 0 := by
  constructor
  · intro h
    have := expectedDays_length p d
      (List.replicate initial_active_referrers 0) 0
    rw [h] at this
    simpa using this.symm
  · rintro rfl
    rfl

theorem finalExpected_zero (p : ℚ) : finalExpected p 0 = 0 := rfl

/-- Correctness of the binary-search loop: starting from a window whose
left part is all below target and whose right end either meets the target
or is the initial upper bound `R0`, the loop returns the least day meeting
the target in the window (or the untouched upper bound). -/
theorem dttLoop_spec (p : ℚ) (tt : Int) (hp0 : 0 < p) (hp1 : p ≤ 1)
    (htt : 0 < tt) (R0 : Nat) :
    ∀ left right : Nat, left ≤ right →
      (∀ d < left, ¬ ((tt : ℚ) ≤ finalExpected p d)) →
      ((tt : ℚ) ≤ finalExpected p right ∨ right = R0) →
      ∃ m, dttLoop p tt left right = .ok m ∧ left ≤ m ∧ m ≤ right ∧
        (∀ d < m, ¬ ((tt : ℚ) ≤ finalExpected p d)) ∧
        ((tt : ℚ) ≤ finalExpected p m ∨ m = R0) := by
  intro left right
  induction left, right using dttLoop.induct p tt with
  | case1 left right h mid e heq =>
      -- the probe cannot error for a valid probability
      intro _ _ _
      rw [simulate_expected_ok p hp0.le hp1 _] at heq
      exact absurd heq (by simp)
  | case2 left right h mid heq ih =>
      intro hle hI1 hI2
      have hmid : mid = (left + right) / 2 := rfl
      rw [simulate_expected_ok p hp0.le hp1 mid] at heq
      injection heq with heq
      have hmid0 : mid = 0 :=
        (expectedDays_run_eq_nil_iff p mid).1 heq
      obtain ⟨m, hm, hm1, hm2, hm3, hm4⟩ := ih (by omega)
        (by
          intro d hd
          have hd0 : d = 0 := by omega
          rw [hd0, finalExpected_zero]
          intro hc
          have : (0 : ℚ) < (tt : ℚ) := by exact_mod_cast htt
          linarith)
        hI2
      refine ⟨m, ?_, by omega, hm2, hm3, hm4⟩
      rw [dttLoop, dif_pos h]
      simp only
      rw [simulate_expected_ok p hp0.le hp1 ((left + right) / 2)]
      simp only
      rw [if_pos (by rw [← hmid]; rw [heq])]
      rw [← hmid]
      exact hm
  | case3 left right h mid res heq hnil hge ih =>
      intro hle hI1 hI2
      have hmid : mid = (left + right) / 2 := rfl
      rw [simulate_expected_ok p hp0.le hp1 mid] at heq
      injection heq with heq
      have hPmid : (tt : ℚ) ≤ finalExpected p mid := by
        rw [← expectedDays_run_getLastD p mid, heq]
        exact hge
      obtain ⟨m, hm, hm1, hm2, hm3, hm4⟩ := ih (by omega) hI1 (Or.inl hPmid)
      refine ⟨m, ?_, hm1, by omega, hm3, hm4⟩
      rw [dttLoop, dif_pos h]
      simp only
      rw [simulate_expected_ok p hp0.le hp1 ((left + right) / 2)]
      simp only
      rw [if_neg (by rw [← hmid, heq]; exact hnil),
        if_pos (by rw [← hmid, heq]; exact hge)]
      rw [← hmid]
      exact hm
  | case4 left right h mid res heq hnil hlt ih =>
      intro hle hI1 hI2
      have hmid : mid = (left + right) / 2 := rfl
      rw [simulate_expected_ok p hp0.le hp1 mid] at heq
      injection heq with heq
      have hPmid : ¬ ((tt : ℚ) ≤ finalExpected p mid) := by
        rw [← expectedDays_run_getLastD p mid, heq]
        exact hlt
      obtain ⟨m, hm, hm1, hm2, hm3, hm4⟩ := ih (by omega)
        (by
          intro d hd
          by_cases hdl : d < left
          · exact hI1 d hdl
          · intro hP
            have hdm : d ≤ mid := by omega
            exact hPmid (le_trans hP (finalExpected_mono p hp0.le hdm)))
        hI2
      refine ⟨m, ?_, by omega, hm2, hm3, hm4⟩
      rw [dttLoop, dif_pos h]
      simp only
      rw [simulate_expected_ok p hp0.le hp1 ((left + right) / 2)]
      simp only
      rw [if_neg (by rw [← hmid, heq]; exact hnil),
        if_neg (by rw [← hmid, heq]; exact hlt)]
      rw [← hmid]
      exact hm
  | case5 left right h =>
      intro hle hI1 hI2
      have heq : left = right := by omega
      refine ⟨left, ?_, le_refl _, by omega, hI1, by rw [heq]; exact hI2⟩
      rw [dttLoop, dif_neg h]

/-- Full behaviour of `days_to_target` for a valid positive probability:
it returns the least day count `d ≤ 1000` whose final expectation meets the
target, or `none` when no day count up to 1000 does. -/
theorem days_to_target_spec (p : ℚ) (tt : Int) (hp0 : 0 < p) (hp1 : p ≤ 1)
    (htt : 0 < tt) :
    ∃ r, days_to_target p tt = .ok r ∧
      ((∃ d, r = some d ∧ d ≤ 1000 ∧ (tt : ℚ) ≤ finalExpected p d ∧
          ∀ d' < d, ¬ ((tt : ℚ) ≤ finalExpected p d')) ∨
       (r = none ∧ ∀ d ≤ 1000, ¬ ((tt : ℚ) ≤ finalExpected p d))) := by
  obtain ⟨m, hm, hm1, hm2, hm3, hm4⟩ := dttLoop_spec p tt hp0 hp1 htt 1000
    0 1000 (by omega) (fun d hd => absurd hd (by omega)) (Or.inr rfl)
  have hP0 : ¬ ((tt : ℚ) ≤ finalExpected p 0) := by
    rw [finalExpected_zero]
    intro hc
    have : (0 : ℚ) < (tt : ℚ) := by exact_mod_cast htt
    linarith
  unfold days_to_target
  rw [if_neg (by omega), if_neg (not_le.2 hp0), hm]
  simp only
  rw [if_pos hm2, simulate_expected_ok p hp0.le hp1 m]
  simp only
  by_cases hPm : (tt : ℚ) ≤ finalExpected p m
  · have hm0 : m ≠ 0 := by
      intro h0
      rw [h0] at hPm
      exact hP0 hPm
    rw [if_pos ⟨by
        rw [Ne, expectedDays_run_eq_nil_iff]
        exact hm0,
      by rw [expectedDays_run_getLastD]; exact hPm⟩]
    exact ⟨some m, rfl, Or.inl ⟨m, rfl, hm2, hPm, hm3⟩⟩
  · have hm1000 : m = 1000 := by
      rcases hm4 with h | h
      · exact absurd h hPm
      · exact h
    rw [if_neg (by
      rintro ⟨-, hc⟩
      rw [expectedDays_run_getLastD] at hc
      exact hPm hc)]
    refine ⟨none, rfl, Or.inr ⟨rfl, ?_⟩⟩
    intro d hd
    rcases lt_or_eq_of_le hd with hd | hd
    · exact hm3 d (by omega)
    · rw [hd, ← hm1000]
      exact hPm

/-- Shared helper: when no day count up to the search bound 1000 reaches
the target, the call reports `none` ("impossible"). -/
theorem days_to_target_none_of_bounded (p : ℚ) (tt : Int) (hp0 : 0 < p)
    (hp1 : p ≤ 1) (htt : 0 < tt)
    (hall : ∀ d ≤ 1000, ¬ ((tt : ℚ) ≤ finalExpected p d)) :
    days_to_target p tt = .ok none := by
  obtain ⟨r, hr, hcases⟩ := days_to_target_spec p tt hp0 hp1 htt
  rcases hcases with ⟨d, rfl, hd1000, hPd, -⟩ | ⟨rfl, -⟩
  · exact absurd hPd (hall d hd1000)
  · exact hr

/-- **C4 (amended).** `days_to_target` returns 0 for `targetTotal ≤ 0`
(for every `p`); "impossible" for `p ≤ 0` and a positive target; raises
`InvalidProbability` for `p > 1` and a positive target; and for
`0 < p ≤ 1` and a positive target it returns the minimal number of days
`d ≤ 1000` (the hard-coded search bound) whose final
`SimulateExpected(p, d)` value meets the target, or "impossible" when no
`d ≤ 1000` meets it. -/
theorem c4_days_to_target (p : ℚ) (tt : Int) :
    (tt ≤ 0 → days_to_target p tt = .ok (some 0)) ∧
    (0 < tt → p ≤ 0 → days_to_target p tt = .ok none) ∧
    (0 < tt → 1 < p → days_to_target p tt = .error .InvalidProbability) ∧
    (0 < tt → 0 < p → p ≤ 1 →
      ∃ r, days_to_target p tt = .ok r ∧
        ((∃ d, r = some d ∧ d ≤ 1000 ∧ (tt : ℚ) ≤ finalExpected p d ∧
            ∀ d' < d, ¬ ((tt : ℚ) ≤ finalExpected p d')) ∨
         (r = none ∧ ∀ d ≤ 1000, ¬ ((tt : ℚ) ≤ finalExpected p d)))) := by
  refine ⟨?_, ?_, ?_, ?_⟩
  · intro htt
    unfold days_to_target
    rw [if_pos htt]
  · intro htt hp
    unfold days_to_target
    rw [if_neg (by omega), if_pos hp]
  · intro htt hp
    have hse : ∀ dd : Int,
        simulate_expected p dd = .error .InvalidProbability := by
      intro dd
      unfold simulate_expected
      rw [if_pos (by
        rintro ⟨-, hc⟩
        linarith)]
    have hloop : dttLoop p tt 0 1000 = .error .InvalidProbability := by
      rw [dttLoop, dif_pos (by omega)]
      simp only
      rw [hse]
    unfold days_to_target
    rw [if_neg (by omega), if_neg (by intro hc; linarith), hloop]
  · intro htt hp0 hp1
    exact days_to_target_spec p tt hp0 hp1 htt

/-- Counterexample to C4 as stated: with `p = 1/1000` and target 500 the
minimal sufficient number of days exists (5000 days reach an expectation
of exactly 500) but lies beyond the hard-coded bound 1000, so the code
reports "impossible". -/
theorem c4_counterexample :
    days_to_target (1/1000) 500 = .ok none ∧
      (500 : ℚ) ≤ finalExpected (1/1000) 5000 := by
  constructor
  · refine days_to_target_none_of_bounded (1/1000) 500 (by norm_num)
      (by norm_num) (by norm_num) ?_
    intro d hd
    rw [finalExpected_linear (1/1000) (by norm_num) d (by
      intro k hk
      have hkq : (k : ℚ) < 1000 := by exact_mod_cast (by omega : k < 1000)
      rw [max_referrals_per_referrer]
      push_cast
      linarith)]
    have hdq : (d : ℚ) ≤ 1000 := by exact_mod_cast hd
    intro habs
    nlinarith
  · rw [finalExpected_linear (1/1000) (by norm_num) 5000 (by
      intro k hk
      have hkq : (k : ℚ) < 5000 := by exact_mod_cast hk
      rw [max_referrals_per_referrer]
      push_cast
      linarith)]
    norm_num

/-- Witness for C4 at concrete inputs: target 0 returns 0 days, `p = 0`
is impossible, `p = 2` raises. -/
theorem c4_days_to_target_witness :
    days_to_target (1/2) 0 = .ok (some 0) ∧
    days_to_target 0 5 = .ok none ∧
    days_to_target 2 5 = .error .InvalidProbability := by
  refine ⟨(c4_days_to_target (1/2) 0).1 (by omega),
    (c4_days_to_target 0 5).2.1 (by omega) (by norm_num),
    (c4_days_to_target 2 5).2.2.1 (by omega) (by norm_num)⟩

/-! ## `min_bonus_for_target` (`ReferralBonusOptimizer`) -/

/-- `ReferralBonusOptimizer.min_bonus` (the fixed bonus increment). -/
def min_bonus : Nat := 10

/-- `ReferralBonusOptimizer.max_bonus`. -/
def max_bonus : Nat := 10000

/-- The errors `min_bonus_for_target` can raise: its own `ValueError`s and
any `ValueError` propagated from `simulate_expected`. -/
inductive OptError where
  | InvalidTolerance
  | InvalidProbabilityFunction
  | Sim (e : SimError)
deriving Repr, DecidableEq

/-- The `while left < right` binary-search loop of
`ReferralBonusOptimizer.min_bonus_for_target`: the midpoint is rounded
down to the nearest $10 increment before probing `adoption_prob` and
`simulate_expected`. -/
def mbLoop (days : Int) (target_hires : Int) (adoption_prob : Nat → ℚ) :
    Nat → Nat → Except OptError Nat
  | left, right =>
    if h : left < right then
      let mid := (left + right) / 2 / 10 * 10
      let adjusted_prob := adoption_prob mid
      if ¬(0 ≤ adjusted_prob ∧ adjusted_prob ≤ 1) then
        .error .InvalidProbabilityFunction
      else
        match simulate_expected adjusted_prob days with
        | .error e => .error (.Sim e)
        | .ok simulation_result =>
            if simulation_result = [] then
              mbLoop days target_hires adoption_prob (mid + 10) right
            else if (target_hires : ℚ) ≤ simulation_result.getLastD 0 then
              mbLoop days target_hires adoption_prob left mid
            else
              mbLoop days target_hires adoption_prob (mid + 10) right
    else .ok left
termination_by left right => right - left
decreasing_by
  all_goals omega

/-- `ReferralBonusOptimizer.min_bonus_for_target`.  The Python
`callable`/arity/`isinstance` checks cannot fail for a total function
`Nat → ℚ` and are omitted; the range checks on every returned probability
are kept. -/
def min_bonus_for_target (days : Int) (target_hires : Int)
    (adoption_prob : Nat → ℚ) (eps : ℚ) : Except OptError (Option Nat) :=
  if days ≤ 0 ∨ target_hires ≤ 0 then .ok none
  else if eps ≤ 0 then .error .InvalidTolerance
  else if ¬(0 ≤ adoption_prob 0 ∧ adoption_prob 0 ≤ 1) then
    .error .InvalidProbabilityFunction
  else
    let max_prob := adoption_prob max_bonus
    if ¬(0 ≤ max_prob ∧ max_prob ≤ 1) then
      .error .InvalidProbabilityFunction
    else
      match simulate_expected max_prob days with
      | .error e => .error (.Sim e)
      | .ok max_bonus_simulation =>
          if max_bonus_simulation = [] ∨
              ¬((target_hires : ℚ) ≤ max_bonus_simulation.getLastD 0) then
            .ok none
          else
            match mbLoop days target_hires adoption_prob 0 max_bonus with
            | .error e => .error e
            | .ok left =>
                if left ≤ max_bonus then
                  let final_prob := adoption_prob left
                  if ¬(0 ≤ final_prob ∧ final_prob ≤ 1) then
                    .error .InvalidProbabilityFunction
                  else
                    match simulate_expected final_prob days with
                    | .error e => .error (.Sim e)
                    | .ok final_simulation =>
                        if final_simulation ≠ [] ∧ (target_hires : ℚ) ≤
                            final_simulation.getLastD 0 then
                          .ok (some left)
                        else .ok none
                else .ok none

/-- The loop keeps `left` a multiple of the $10 increment. -/
theorem mbLoop_multiple (days target : Int) (f : Nat → ℚ) :
    ∀ left right : Nat, 10 ∣ left →
      ∀ m, mbLoop days target f left right = .ok m → 10 ∣ m := by
  intro left right
  induction left, right using mbLoop.induct days target f with
  | case1 left right h mid prob hbad =>
      intro hdvd m hm
      rw [mbLoop, dif_pos h] at hm
      simp only at hm
      rw [if_pos hbad] at hm
      exact absurd hm (by simp)
  | case2 left right h mid prob hok e hsim =>
      intro hdvd m hm
      rw [mbLoop, dif_pos h] at hm
      simp only at hm
      rw [if_neg hok, hsim] at hm
      exact absurd hm (by simp)
  | case3 left right h mid prob hok hsim ih =>
      intro hdvd m hm
      rw [mbLoop, dif_pos h] at hm
      simp only at hm
      rw [if_neg hok, hsim] at hm
      simp only [if_pos] at hm
      exact ih (by omega) m hm
  | case4 left right h mid prob hok res hsim hnil hge ih =>
      intro hdvd m hm
      rw [mbLoop, dif_pos h] at hm
      simp only at hm
      rw [if_neg hok, hsim] at hm
      simp only [if_neg hnil, if_pos hge] at hm
      exact ih hdvd m hm
  | case5 left right h mid prob hok res hsim hnil hlt ih =>
      intro hdvd m hm
      rw [mbLoop, dif_pos h] at hm
      simp only at hm
      rw [if_neg hok, hsim] at hm
      simp only [if_neg hnil, if_neg hlt] at hm
      exact ih (by omega) m hm
  | case6 left right h =>
      intro hdvd m hm
      rw [mbLoop, dif_neg h] at hm
      injection hm with hm
      rw [← hm]
      exact hdvd

theorem simulate_expected_ok_int (q : ℚ) (h0 : 0 ≤ q) (h1 : q ≤ 1)
    (days : Int) (hd : 0 < days) :
    simulate_expected q days = .ok (expectedDays q days.toNat
      (List.replicate initial_active_referrers 0) 0) := by
  unfold simulate_expected
  rw [if_neg (by simp [h0, h1]), if_neg (by omega)]

/-- **C5.** Whenever `min_bonus_for_target` returns a bonus `b` rather
than "impossible" (under positive days/target/eps and an adoption-probability
function with values in `[0, 1]`), `b` is a multiple of the fixed $10
increment and simulating with `adoption_prob b` meets the hiring target. -/
theorem c5_min_bonus_sound (days target : Int) (f : Nat → ℚ) (eps : ℚ)
    (hdays : 0 < days) (htgt : 0 < target) (heps : 0 < eps)
    (hf : ∀ b, 0 ≤ f b ∧ f b ≤ 1) :
    ∀ b, min_bonus_for_target days target f eps = .ok (some b) →
      10 ∣ b ∧ (target : ℚ) ≤ finalExpected (f b) days.toNat := by
  intro b hb
  unfold min_bonus_for_target at hb
  rw [if_neg (by omega), if_neg (not_le.2 heps),
    if_neg (by simpa using hf 0)] at hb
  simp only at hb
  rw [if_neg (by simpa using hf max_bonus),
    simulate_expected_ok_int (f max_bonus) (hf _).1 (hf _).2 days hdays] at hb
  simp only at hb
  by_cases hmaxcond : (expectedDays (f max_bonus) days.toNat
      (List.replicate initial_active_referrers 0) 0 = []) ∨
      ¬((target : ℚ) ≤ (expectedDays (f max_bonus) days.toNat
        (List.replicate initial_active_referrers 0) 0).getLastD 0)
  · rw [if_pos hmaxcond] at hb
    exact absurd hb (by simp)
  · rw [if_neg hmaxcond] at hb
    cases hloop : mbLoop days target f 0 max_bonus with
    | error e =>
        rw [hloop] at hb
        exact absurd hb (by simp)
    | ok left =>
        rw [hloop] at hb
        simp only at hb
        by_cases hle : left ≤ max_bonus
        · rw [if_pos hle] at hb
          try simp only at hb
          rw [if_neg (by simpa using hf left),
            simulate_expected_ok_int (f left) (hf _).1 (hf _).2 days
              hdays] at hb
          simp only at hb
          by_cases hfinal : (expectedDays (f left) days.toNat
              (List.replicate initial_active_referrers 0) 0 ≠ []) ∧
              (target : ℚ) ≤ (expectedDays (f left) days.toNat
                (List.replicate initial_active_referrers 0) 0).getLastD 0
          · rw [if_pos hfinal] at hb
            injection hb with hb
            injection hb with hb
            subst hb
            refine ⟨mbLoop_multiple days target f 0 max_bonus ⟨0, rfl⟩
              left hloop, ?_⟩
            have := hfinal.2
            rw [expectedDays_run_getLastD] at this
            exact this
          · rw [if_neg hfinal] at hb
            exact absurd hb (by simp)
        · rw [if_neg hle] at hb
          exact absurd hb (by simp)

/-- One day of the expected simulation at probability 1. -/
theorem simulate_expected_one_one :
    simulate_expected 1 1 = .ok [(100 : ℚ)] := by
  rw [simulate_expected_ok_int 1 (by norm_num) (by norm_num) 1 (by omega)]
  refine congrArg Except.ok ?_
  have ht : (1 : Int).toNat = 1 := rfl
  rw [ht, expectedDays, expectedDay_replicate,
    if_neg (by norm_num [max_referrals_per_referrer])]
  simp only
  rw [expectedDays]
  norm_num [initial_active_referrers]

/-- One probe step of the bonus search when the probe meets the target:
the window shrinks to `[left, mid]`. -/
theorem mbLoop_step_ge (days target : Int) (f : Nat → ℚ)
    (left right : Nat) (h : left < right)
    (hok : 0 ≤ f ((left + right) / 2 / 10 * 10) ∧
      f ((left + right) / 2 / 10 * 10) ≤ 1)
    (res : List ℚ)
    (hsim : simulate_expected (f ((left + right) / 2 / 10 * 10)) days =
      .ok res)
    (hnil : ¬ res = []) (hge : (target : ℚ) ≤ res.getLastD 0) :
    mbLoop days target f left right =
      mbLoop days target f left ((left + right) / 2 / 10 * 10) := by
  rw [mbLoop, dif_pos h]
  simp only
  rw [if_neg (not_not.2 hok), hsim]
  simp only
  rw [if_neg hnil, if_pos hge]

theorem mbLoop_eval : mbLoop 1 1 (fun _ => 1) 0 max_bonus = .ok 0 := by
  have hstep : ∀ right : Nat, 0 < right →
      mbLoop 1 1 (fun _ => 1) 0 right =
        mbLoop 1 1 (fun _ => 1) 0 ((0 + right) / 2 / 10 * 10) :=
    fun right hr =>
      mbLoop_step_ge 1 1 (fun _ => 1) 0 right hr (by norm_num) [100]
        simulate_expected_one_one (by simp) (by norm_num [List.getLastD])
  unfold max_bonus
  rw [hstep 10000 (by omega)]
  norm_num
  rw [hstep 5000 (by omega)]
  norm_num
  rw [hstep 2500 (by omega)]
  norm_num
  rw [hstep 1250 (by omega)]
  norm_num
  rw [hstep 620 (by omega)]
  norm_num
  rw [hstep 310 (by omega)]
  norm_num
  rw [hstep 150 (by omega)]
  norm_num
  rw [hstep 70 (by omega)]
  norm_num
  rw [hstep 30 (by omega)]
  norm_num
  rw [hstep 10 (by omega)]
  norm_num
  rw [mbLoop, dif_neg (by omega)]

theorem min_bonus_eval :
    min_bonus_for_target 1 1 (fun _ => 1) 1 = .ok (some 0) := by
  unfold min_bonus_for_target
  rw [if_neg (by omega), if_neg (by norm_num),
    if_neg (not_not.2 (by norm_num))]
  try simp only
  rw [if_neg (not_not.2 (by norm_num)), simulate_expected_one_one]
  try simp only
  rw [if_neg (by norm_num [List.getLastD]), mbLoop_eval]
  try simp only
  rw [if_pos (by norm_num [max_bonus])]
  try simp only
  rw [if_neg (not_not.2 (by norm_num))]
  try simp only
  rw [if_pos ⟨by simp, by norm_num [List.getLastD]⟩]

/-- Witness for C5: with one day, target 1, constant adoption probability 1
and tolerance 1, the returned bonus is 0 — a multiple of $10 whose
simulation meets the target. -/
theorem c5_min_bonus_sound_witness :
    10 ∣ 0 ∧ (1 : ℚ) ≤ finalExpected 1 (1 : Int).toNat :=
  c5_min_bonus_sound 1 1 (fun _ => 1) 1 (by omega) (by omega) (by norm_num)
    (fun b => by norm_num) 0 min_bonus_eval

/-- **C8 (amended).** `days ≤ 0` or `targetHires ≤ 0` yields "impossible"
without ever reading `eps` (so no `InvalidTolerance` is raised in that
case); when both are positive, `eps ≤ 0` raises `InvalidTolerance`. -/
theorem c8_min_bonus_preconditions (days target : Int) (f : Nat → ℚ)
    (eps : ℚ) :
    ((days ≤ 0 ∨ target ≤ 0) →
      min_bonus_for_target days target f eps = .ok none) ∧
    (0 < days → 0 < target → eps ≤ 0 →
      min_bonus_for_target days target f eps = .error .InvalidTolerance) := by
  constructor
  · intro h
    unfold min_bonus_for_target
    rw [if_pos h]
  · intro h1 h2 h3
    unfold min_bonus_for_target
    rw [if_neg (by omega), if_pos h3]

/-- Counterexample to C8 as stated: with `days = 0` and `eps = -1 ≤ 0` the
call returns "impossible" instead of failing with `InvalidTolerance` — the
days/target guard runs before the tolerance check. -/
theorem c8_counterexample :
    min_bonus_for_target 0 5 (fun _ => 0) (-1) = .ok none := by
  unfold min_bonus_for_target
  rw [if_pos (Or.inl (by omega))]

/-- Witness for C8 at concrete inputs. -/
theorem c8_min_bonus_preconditions_witness :
    min_bonus_for_target 0 5 (fun _ => (0 : ℚ)) 1 = .ok none ∧
    min_bonus_for_target 1 1 (fun _ => (0 : ℚ)) (-1) =
      .error .InvalidTolerance :=
  ⟨(c8_min_bonus_preconditions 0 5 (fun _ => 0) 1).1 (Or.inl (by omega)),
   (c8_min_bonus_preconditions 1 1 (fun _ => 0) (-1)).2 (by omega) (by omega)
     (by norm_num)⟩

/-! ## Flow centrality (`get_flow_centrality`) -/

theorem alistLookup_append {α : Type} (l1 l2 : List (String × α))
    (x : String) :
    alistLookup (l1 ++ l2) x =
      match alistLookup l1 x with
      | some v => some v
      | none => alistLookup l2 x := by
  induction l1 with
  | nil => simp [alistLookup]
  | cons p rest ih =>
      obtain ⟨k, v⟩ := p
      by_cases hk : k = x <;> simp [alistLookup, hk, ih]

theorem alistLookup_append_of_isSome {α : Type} {l1 : List (String × α)}
    {x : String} (h : (alistLookup l1 x).isSome) (l2 : List (String × α)) :
    alistLookup (l1 ++ l2) x = alistLookup l1 x := by
  rw [alistLookup_append]
  cases hl : alistLookup l1 x with
  | none => rw [hl] at h; simp at h
  | some v => rfl

/-- The inner `for candidate in self.reverse_referrals[current]` loop of
`ReferralNetwork._compute_shortest_paths`: each candidate not yet in the
distance map is recorded at `current_distance + 1` and appended to the
queue.  (The `cand ∈ all` test exists for termination only; it never fails
for the adjacencies used here, whose values all lie in `all`.) -/
def distChildren (all : List String) (cd : Nat) :
    List String → List (String × Nat) → List String →
      List (String × Nat) × List String
  | [], dists, queued => (dists, queued)
  | cand :: cs, dists, queued =>
      if (alistLookup dists cand).isSome then
        distChildren all cd cs dists queued
      else if cand ∈ all then
        distChildren all cd cs (dists ++ [(cand, cd + 1)]) (queued ++ [cand])
      else distChildren all cd cs dists queued

/-- Existing distance entries survive the inner loop unchanged. -/
theorem distChildren_mono (all : List String) (cd : Nat) :
    ∀ (cs : List String) (dists : List (String × Nat))
      (queued : List String) (x : String),
      (alistLookup dists x).isSome →
      alistLookup (distChildren all cd cs dists queued).1 x =
        alistLookup dists x := by
  intro cs
  induction cs with
  | nil => intro dists queued x h; rfl
  | cons cand rest ih =>
      intro dists queued x h
      rw [distChildren]
      by_cases hc : (alistLookup dists cand).isSome
      · rw [if_pos hc]
        exact ih dists queued x h
      · rw [if_neg hc]
        by_cases hall : cand ∈ all
        · rw [if_pos hall]
          rw [ih _ _ x (by rw [alistLookup_append_of_isSome h]; exact h)]
          exact alistLookup_append_of_isSome h _
        · rw [if_neg hall]
          exact ih dists queued x h

/-- Either the inner loop changes nothing, or it strictly extends the set
of `all`-nodes that carry a distance. -/
theorem distChildren_measure (all : List String) (cd : Nat) :
    ∀ (cs : List String) (dists : List (String × Nat))
      (queued : List String),
      ((distChildren all cd cs dists queued).1 = dists ∧
        (distChildren all cd cs dists queued).2 = queued) ∨
      ((all.filter (fun x => ¬(alistLookup
          (distChildren all cd cs dists queued).1 x).isSome)).length <
        (all.filter (fun x => ¬(alistLookup dists x).isSome)).length) := by
  intro cs
  induction cs with
  | nil => intro dists queued; exact Or.inl ⟨rfl, rfl⟩
  | cons cand rest ih =>
      intro dists queued
      rw [distChildren]
      by_cases hc : (alistLookup dists cand).isSome
      · rw [if_pos hc]
        exact ih dists queued
      · rw [if_neg hc]
        by_cases hall : cand ∈ all
        · rw [if_pos hall]
          refine Or.inr ?_
          have hstep : (all.filter (fun x => ¬(alistLookup
              (dists ++ [(cand, cd + 1)]) x).isSome)).length <
              (all.filter (fun x => ¬(alistLookup dists x).isSome)).length := by
            refine length_filter_lt_of_mem hall ?_ ?_ ?_
            · simpa using hc
            · simp [alistLookup_append, alistLookup]
              cases hl : alistLookup dists cand with
              | none => simp
              | some v => rw [hl] at hc; simp at hc
            · intro x hx
              simp only [decide_not, Bool.not_eq_true',
                decide_eq_false_iff_not] at hx ⊢
              intro hsome
              exact hx (by rw [alistLookup_append_of_isSome hsome]
                           exact hsome)
          have hmono : (all.filter (fun x => ¬(alistLookup
              (distChildren all cd rest (dists ++ [(cand, cd + 1)])
                (queued ++ [cand])).1 x).isSome)).length ≤
              (all.filter (fun x => ¬(alistLookup
                (dists ++ [(cand, cd + 1)]) x).isSome)).length := by
            refine length_filter_le_of_imp _ ?_
            intro x hx
            simp only [decide_not, Bool.not_eq_true',
              decide_eq_false_iff_not] at hx ⊢
            intro hsome
            exact hx (by rw [distChildren_mono all cd rest _ _ x hsome]
                         exact hsome)
          omega
        · rw [if_neg hall]
          exact ih dists queued

/-- The queue loop of `ReferralNetwork._compute_shortest_paths`: pop a
node, read its distance, and run the child loop. -/
def bfsDistLoop (adj : String → List String) (all : List String)
    (distances : List (String × Nat)) (queue : List String) :
    List (String × Nat) :=
  match queue with
  | [] => distances
  | current :: rest =>
      match alistLookup distances current with
      | none =>
          -- dead: every queued node already carries a distance
          bfsDistLoop adj all distances rest
      | some current_distance =>
          bfsDistLoop adj all
            (distChildren all current_distance (adj current) distances rest).1
            (distChildren all current_distance (adj current) distances rest).2
termination_by ((all.filter
    (fun x => ¬(alistLookup distances x).isSome)).length, queue.length)
decreasing_by
  · apply Prod.Lex.right
    simp
  · rcases distChildren_measure all current_distance (adj current)
        distances rest with ⟨hd, hq⟩ | hlt
    · rw [hd, hq]
      apply Prod.Lex.right
      simp
    · exact Prod.Lex.left _ _ hlt

/-- `ReferralNetwork._compute_shortest_paths`. -/
def compute_shortest_paths (g : ReferralNetwork) (start : String) :
    List (String × Nat) :=
  bfsDistLoop (adjOf g) (allNodes g start) [(start, 0)] [start]

/-- `ReferralNetwork._is_on_shortest_path`. -/
def is_on_shortest_path (start finish target : String)
    (distances_from_start distances_from_target : List (String × Nat)) :
    Bool :=
  if start = finish ∨ start = target ∨ finish = target then false
  else
    match alistLookup distances_from_start finish with
    | none => false
    | some dist_start_to_end =>
        match alistLookup distances_from_start target with
        | none => false
        | some dist_start_to_target =>
            match alistLookup distances_from_target finish with
            | none => false
            | some dist_target_to_end =>
                dist_start_to_target + dist_target_to_end = dist_start_to_end

/-- The innermost `for user3 in self.users` loop body of
`ReferralNetwork.get_flow_centrality`: a third user distinct from both
endpoints gains one point when it lies on a shortest `user1 → user2`
path (the precomputed `all_distances[u]` is `_compute_shortest_paths(u)`). -/
def flowStep3 (g : ReferralNetwork) (user1 user2 : String)
    (acc : String → Nat) (user3 : String) : String → Nat :=
  if user3 = user1 ∨ user3 = user2 then acc
  else if is_on_shortest_path user1 user2 user3
      (compute_shortest_paths g user1) (compute_shortest_paths g user3) then
    fun u => if u = user3 then acc u + 1 else acc u
  else acc

/-- The middle `for j, user2 in enumerate(user_list)` loop body of
`get_flow_centrality`: a pair of distinct users whose target carries a
distance from `user1` runs the inner loop over all users. -/
def flowStep2 (g : ReferralNetwork) (user1 : String)
    (acc : String → Nat) (user2 : String) : String → Nat :=
  if user1 = user2 then acc
  else if (alistLookup (compute_shortest_paths g user1) user2).isSome then
    g.users.foldl (flowStep3 g user1 user2) acc
  else acc

/-- The outer `for i, user1 in enumerate(user_list)` loop body of
`get_flow_centrality`. -/
def flowStep1 (g : ReferralNetwork) (acc : String → Nat) (user1 : String) :
    String → Nat :=
  g.users.foldl (flowStep2 g user1) acc

/-- `ReferralNetwork.get_flow_centrality`: fewer than 3 users yields `[]`;
otherwise the nested loops accumulate a centrality score per user and the
result lists every user with its score, sorted by score descending. -/
def get_flow_centrality (g : ReferralNetwork) : List (String × Nat) :=
  if g.users.length < 3 then []
  else
    let scores := g.users.foldl (flowStep1 g) (fun _ => (0 : Nat))
    (g.users.map (fun u => (u, scores u))).mergeSort (fun a b => b.2 ≤ a.2)

theorem alistLookup_append_singleton {α : Type} {l : List (String × α)}
    {k x : String} {v n : α}
    (h : alistLookup (l ++ [(k, v)]) x = some n) :
    alistLookup l x = some n ∨ (x = k ∧ n = v) := by
  rw [alistLookup_append] at h
  cases hl : alistLookup l x with
  | some w =>
      rw [hl] at h
      exact Or.inl h
  | none =>
      rw [hl] at h
      simp only [alistLookup] at h
      by_cases hk : k = x
      · rw [if_pos hk] at h
        injection h with h
        exact Or.inr ⟨hk.symm, h.symm⟩
      · rw [if_neg hk] at h
        exact absurd h (by simp [alistLookup])

theorem distChildren_keys_nodup (all : List String) (cd : Nat) :
    ∀ (cs : List String) (dists : List (String × Nat))
      (queued : List String),
      (dists.map Prod.fst).Nodup →
      ((distChildren all cd cs dists queued).1.map Prod.fst).Nodup := by
  intro cs
  induction cs with
  | nil => intro dists queued h; exact h
  | cons cand rest ih =>
      intro dists queued h
      rw [distChildren]
      by_cases hc : (alistLookup dists cand).isSome
      · rw [if_pos hc]
        exact ih dists queued h
      · rw [if_neg hc]
        by_cases hall : cand ∈ all
        · rw [if_pos hall]
          refine ih _ _ ?_
          rw [List.map_append]
          refine List.Nodup.append h (by simp) ?_
          intro y hy hy2
          simp only [List.map_cons, List.map_nil, List.mem_singleton] at hy2
          subst hy2
          have : alistLookup dists y = none := by
            cases hl : alistLookup dists y with
            | none => rfl
            | some v => rw [hl] at hc; simp at hc
          exact (alistLookup_eq_none_iff dists y).1 this hy
        · rw [if_neg hall]
          exact ih dists queued h

theorem distChildren_queued_sub (all : List String) (cd : Nat) :
    ∀ (cs : List String) (dists : List (String × Nat))
      (queued : List String) (x : String), x ∈ queued →
      x ∈ (distChildren all cd cs dists queued).2 := by
  intro cs
  induction cs with
  | nil => intro dists queued x h; exact h
  | cons cand rest ih =>
      intro dists queued x h
      rw [distChildren]
      by_cases hc : (alistLookup dists cand).isSome
      · rw [if_pos hc]
        exact ih dists queued x h
      · rw [if_neg hc]
        by_cases hall : cand ∈ all
        · rw [if_pos hall]
          exact ih _ _ x (List.mem_append.2 (Or.inl h))
        · rw [if_neg hall]
          exact ih dists queued x h

theorem distChildren_fresh_mem_queue (all : List String) (cd : Nat) :
    ∀ (cs : List String) (dists : List (String × Nat))
      (queued : List String) (x : String),
      alistLookup dists x = none →
      (alistLookup (distChildren all cd cs dists queued).1 x).isSome →
      x ∈ (distChildren all cd cs dists queued).2 := by
  intro cs
  induction cs with
  | nil =>
      intro dists queued x hnone hsome
      rw [distChildren] at hsome ⊢
      rw [hnone] at hsome
      simp at hsome
  | cons cand rest ih =>
      intro dists queued x hnone hsome
      rw [distChildren] at hsome ⊢
      by_cases hc : (alistLookup dists cand).isSome
      · rw [if_pos hc] at hsome ⊢
        exact ih dists queued x hnone hsome
      · rw [if_neg hc] at hsome ⊢
        by_cases hall : cand ∈ all
        · rw [if_pos hall] at hsome ⊢
          by_cases hx : x = cand
          · subst hx
            exact distChildren_queued_sub all cd rest _ _ x
              (List.mem_append.2 (Or.inr (by simp)))
          · refine ih _ _ x ?_ hsome
            have hsing : alistLookup ([(cand, cd + 1)] :
                List (String × Nat)) x = none := by
              simp only [alistLookup]
              rw [if_neg (fun h => hx h.symm)]
            rw [alistLookup_append, hnone]
            exact hsing
        · rw [if_neg hall] at hsome ⊢
          exact ih dists queued x hnone hsome

theorem distChildren_queue_some (all : List String) (cd : Nat) :
    ∀ (cs : List String) (dists : List (String × Nat))
      (queued : List String),
      (∀ x ∈ queued, (alistLookup dists x).isSome) →
      ∀ x ∈ (distChildren all cd cs dists queued).2,
        (alistLookup (distChildren all cd cs dists queued).1 x).isSome := by
  intro cs
  induction cs with
  | nil =>
      intro dists queued h x hx
      exact h x hx
  | cons cand rest ih =>
      intro dists queued h x hx
      rw [distChildren] at hx ⊢
      by_cases hc : (alistLookup dists cand).isSome
      · rw [if_pos hc] at hx ⊢
        exact ih dists queued h x hx
      · rw [if_neg hc] at hx ⊢
        by_cases hall : cand ∈ all
        · rw [if_pos hall] at hx ⊢
          refine ih _ _ ?_ x hx
          intro y hy
          rcases List.mem_append.1 hy with hy | hy
          · rw [alistLookup_append_of_isSome (h y hy)]
            exact h y hy
          · simp only [List.mem_singleton] at hy
            subst hy
            rw [alistLookup_append]
            cases hl : alistLookup dists y with
            | some v => simp
            | none => simp [alistLookup]
        · rw [if_neg hall] at hx ⊢
          exact ih dists queued h x hx

theorem distChildren_sound (all : List String) (cd : Nat)
    (R : Nat → String → Prop) :
    ∀ (cs : List String) (dists : List (String × Nat))
      (queued : List String),
      (∀ x n, alistLookup dists x = some n → R n x) →
      (∀ x ∈ cs, R (cd + 1) x) →
      ∀ x n, alistLookup (distChildren all cd cs dists queued).1 x =
        some n → R n x := by
  intro cs
  induction cs with
  | nil => intro dists queued hs _ x n h; exact hs x n h
  | cons cand rest ih =>
      intro dists queued hs hnew x n h
      rw [distChildren] at h
      by_cases hc : (alistLookup dists cand).isSome
      · rw [if_pos hc] at h
        exact ih dists queued hs (fun y hy => hnew y (by simp [hy])) x n h
      · rw [if_neg hc] at h
        by_cases hall : cand ∈ all
        · rw [if_pos hall] at h
          refine ih _ _ ?_ (fun y hy => hnew y (by simp [hy])) x n h
          intro y m hy
          rcases alistLookup_append_singleton hy with hy | ⟨rfl, rfl⟩
          · exact hs y m hy
          · exact hnew y (by simp)
        · rw [if_neg hall] at h
          exact ih dists queued hs (fun y hy => hnew y (by simp [hy])) x n h

theorem distChildren_processed (all : List String) (cd : Nat) :
    ∀ (cs : List String) (dists : List (String × Nat))
      (queued : List String) (x : String), x ∈ cs → x ∈ all →
      (alistLookup (distChildren all cd cs dists queued).1 x).isSome := by
  intro cs
  induction cs with
  | nil => intro dists queued x h; simp at h
  | cons cand rest ih =>
      intro dists queued x hx hall
      rw [distChildren]
      by_cases hc : (alistLookup dists cand).isSome
      · rw [if_pos hc]
        rcases List.mem_cons.1 hx with rfl | hx
        · rw [distChildren_mono all cd rest dists queued x hc]
          exact hc
        · exact ih dists queued x hx hall
      · rw [if_neg hc]
        rcases List.mem_cons.1 hx with rfl | hx
        · rw [if_pos hall]
          have hsome : (alistLookup (dists ++ [(x, cd + 1)]) x).isSome := by
            rw [alistLookup_append]
            cases hl : alistLookup dists x with
            | some v => simp
            | none => simp [alistLookup]
          rw [distChildren_mono all cd rest _ _ x hsome]
          exact hsome
        · by_cases hall2 : cand ∈ all
          · rw [if_pos hall2]
            exact ih _ _ x hx hall
          · rw [if_neg hall2]
            exact ih dists queued x hx hall

theorem distChildren_queue_nodup (all : List String) (cd : Nat) :
    ∀ (cs : List String) (dists : List (String × Nat))
      (queued : List String),
      queued.Nodup →
      (∀ x ∈ queued, (alistLookup dists x).isSome) →
      (distChildren all cd cs dists queued).2.Nodup := by
  intro cs
  induction cs with
  | nil => intro dists queued h _; exact h
  | cons cand rest ih =>
      intro dists queued h hq
      rw [distChildren]
      by_cases hc : (alistLookup dists cand).isSome
      · rw [if_pos hc]
        exact ih dists queued h hq
      · rw [if_neg hc]
        by_cases hall : cand ∈ all
        · rw [if_pos hall]
          refine ih _ _ ?_ ?_
          · refine List.Nodup.append h (by simp) ?_
            intro y hy hy2
            simp only [List.mem_singleton] at hy2
            subst hy2
            exact hc (hq _ hy)
          · intro y hy
            rcases List.mem_append.1 hy with hy | hy
            · rw [alistLookup_append_of_isSome (hq y hy)]
              exact hq y hy
            · simp only [List.mem_singleton] at hy
              subst hy
              rw [alistLookup_append]
              cases hl : alistLookup dists y with
              | some v => simp
              | none => simp [alistLookup]
        · rw [if_neg hall]
          exact ih dists queued h hq

/-- In an acyclic store with at most one referrer per candidate, all
fan-out walks between two fixed nodes have the same length. -/
theorem forest_reach_length_unique {g : ReferralNetwork} (hinv : NetInv g) :
    ∀ (a b : Nat) (s x : String), reachNB (adjOf g) a s x = true →
      reachNB (adjOf g) b s x = true → a = b := by
  intro a
  induction a with
  | zero =>
      intro b s x ha hb
      rw [reachNB_zero_iff] at ha
      subst ha
      cases b with
      | zero => rfl
      | succ m =>
          rw [hinv.acyclic s m] at hb
          exact absurd hb (by simp)
  | succ n ih =>
      intro b s x ha hb
      obtain ⟨y, hy, hxy⟩ := reachNB_last_decomp ha
      cases b with
      | zero =>
          rw [reachNB_zero_iff] at hb
          subst hb
          rw [hinv.acyclic s n] at ha
          exact absurd ha (by simp)
      | succ m =>
          obtain ⟨y2, hy2, hxy2⟩ := reachNB_last_decomp hb
          have : y = y2 := by
            have h1 := (hinv.consistency y x).1 hxy
            have h2 := (hinv.consistency y2 x).1 hxy2
            rw [h1] at h2
            injection h2
          subst this
          rw [ih m s y hy hy2]

theorem alistLookup_append_eq_none {α : Type} {l1 l2 : List (String × α)}
    {x : String} (h : alistLookup (l1 ++ l2) x = none) :
    alistLookup l1 x = none := by
  rw [alistLookup_append] at h
  cases hl : alistLookup l1 x with
  | none => rfl
  | some v => rw [hl] at h; exact absurd h (by simp)

theorem distChildren_queue_mem (all : List String) (cd : Nat) :
    ∀ (cs : List String) (dists : List (String × Nat))
      (queued : List String) (x : String),
      x ∈ (distChildren all cd cs dists queued).2 →
      x ∈ queued ∨ alistLookup dists x = none := by
  intro cs
  induction cs with
  | nil => intro dists queued x h; exact Or.inl h
  | cons cand rest ih =>
      intro dists queued x h
      rw [distChildren] at h
      by_cases hc : (alistLookup dists cand).isSome
      · rw [if_pos hc] at h
        exact ih dists queued x h
      · rw [if_neg hc] at h
        by_cases hall : cand ∈ all
        · rw [if_pos hall] at h
          rcases ih _ _ x h with h2 | h2
          · rcases List.mem_append.1 h2 with h3 | h3
            · exact Or.inl h3
            · simp only [List.mem_singleton] at h3
              subst h3
              refine Or.inr ?_
              cases hl : alistLookup dists x with
              | none => rfl
              | some v => rw [hl] at hc; simp at hc
          · exact Or.inr (alistLookup_append_eq_none h2)
        · rw [if_neg hall] at h
          exact ih dists queued x h

/-- Invariant run of the distance BFS: existing entries survive, every
entry is a genuine walk length from `start`, and the final map is closed
under the adjacency. -/
theorem bfsDistLoop_spec (adj : String → List String) (all : List String)
    (start : String) (hav : ∀ x y, y ∈ adj x → y ∈ all) :
    ∀ dists queue,
      (dists.map Prod.fst).Nodup →
      queue.Nodup →
      (∀ x ∈ queue, (alistLookup dists x).isSome) →
      (∀ x n, alistLookup dists x = some n → reachNB adj n start x = true) →
      (∀ x, (alistLookup dists x).isSome → x ∉ queue →
        ∀ c ∈ adj x, (alistLookup dists c).isSome) →
      (∀ x, (alistLookup dists x).isSome →
        (alistLookup (bfsDistLoop adj all dists queue) x).isSome) ∧
      (∀ x n, alistLookup (bfsDistLoop adj all dists queue) x = some n →
        reachNB adj n start x = true) ∧
      (∀ x, (alistLookup (bfsDistLoop adj all dists queue) x).isSome →
        ∀ c ∈ adj x, c ∈ all →
          (alistLookup (bfsDistLoop adj all dists queue) c).isSome) := by
  intro dists queue
  induction dists, queue using bfsDistLoop.induct adj all with
  | case1 distances =>
      intro k1 k5 k2 k3 k4
      rw [bfsDistLoop]
      exact ⟨fun x h => h, k3,
        fun x hx c hc _ => k4 x hx (by simp) c hc⟩
  | case2 distances current rest heq ih =>
      intro k1 k5 k2 k3 k4
      have := k2 current (List.mem_cons_self _ _)
      rw [heq] at this
      simp at this
  | case3 distances current rest current_distance heq ih =>
      intro k1 k5 k2 k3 k4
      have hreach_cur : reachNB adj current_distance start current = true :=
        k3 current current_distance heq
      have hnew : ∀ c ∈ adj current,
          reachNB adj (current_distance + 1) start c = true :=
        fun c hc => reachNB_snoc hreach_cur hc
      set dc := distChildren all current_distance (adj current)
        distances rest with hdc
      have hrest_nodup : rest.Nodup := (List.nodup_cons.1 k5).2
      have hcur_rest : current ∉ rest := (List.nodup_cons.1 k5).1
      have hrest_some : ∀ x ∈ rest, (alistLookup distances x).isSome :=
        fun x hx => k2 x (List.mem_cons_of_mem _ hx)
      have n1 : (dc.1.map Prod.fst).Nodup :=
        distChildren_keys_nodup all current_distance (adj current)
          distances rest k1
      have n5' : dc.2.Nodup :=
        distChildren_queue_nodup all current_distance (adj current)
          distances rest hrest_nodup hrest_some
      have n2 : ∀ x ∈ dc.2, (alistLookup dc.1 x).isSome :=
        distChildren_queue_some all current_distance (adj current)
          distances rest hrest_some
      have n3 : ∀ x n, alistLookup dc.1 x = some n →
          reachNB adj n start x = true :=
        distChildren_sound all current_distance
          (fun n x => reachNB adj n start x = true) (adj current)
          distances rest k3 hnew
      have hcur_some : (alistLookup distances current).isSome := by
        rw [heq]; simp
      have hcur_dc : alistLookup dc.1 current =
          alistLookup distances current :=
        distChildren_mono all current_distance (adj current)
          distances rest current hcur_some
      have hcur_notin_dc : current ∉ dc.2 := by
        intro hmem
        rcases distChildren_queue_mem all current_distance (adj current)
            distances rest current hmem with h | h
        · exact hcur_rest h
        · rw [h] at hcur_some
          simp at hcur_some
      have n4 : ∀ x, (alistLookup dc.1 x).isSome → x ∉ dc.2 →
          ∀ c ∈ adj x, (alistLookup dc.1 c).isSome := by
        intro x hx hnq c hc
        by_cases hxold : (alistLookup distances x).isSome
        · by_cases hxc : x = current
          · subst hxc
            exact distChildren_processed all current_distance (adj x)
              distances rest c hc (hav _ _ hc)
          · have hxq : x ∉ (current :: rest) := by
              intro hmem
              rcases List.mem_cons.1 hmem with h | h
              · exact hxc h
              · exact hnq (distChildren_queued_sub all current_distance
                  (adj current) distances rest x h)
            have hc_some := k4 x hxold hxq c hc
            rw [distChildren_mono all current_distance (adj current)
              distances rest c hc_some]
            exact hc_some
        · have hxnone : alistLookup distances x = none := by
            cases hl : alistLookup distances x with
            | none => rfl
            | some v => rw [hl] at hxold; simp at hxold
          exact absurd (distChildren_fresh_mem_queue all current_distance
            (adj current) distances rest x hxnone hx) hnq
      have hstep : bfsDistLoop adj all distances (current :: rest) =
          bfsDistLoop adj all dc.1 dc.2 := by
        rw [bfsDistLoop, heq]
      obtain ⟨c1, c2, c3⟩ := ih n1 n5' n2 n3 n4
      rw [hstep]
      refine ⟨?_, c2, c3⟩
      intro x hx
      refine c1 x ?_
      rw [distChildren_mono all current_distance (adj current)
        distances rest x hx]
      exact hx

/-- Specification-level shortest distance: `d(a, b) = n` iff there is a
walk of exactly `n` fan-out edges and none shorter. -/
def DistIs (adj : String → List String) (a b : String) (n : Nat) : Prop :=
  reachNB adj n a b = true ∧ ∀ k < n, reachNB adj k a b = false

/-- The specification's counting condition for flow centrality: `(s, t)`
is an ordered pair of users distinct from each other and from `v`, `t` is
reachable from `s`, `v` from `s`, `t` from `v`, and
`d(s,v) + d(v,t) = d(s,t)`. -/
def FlowCond (g : ReferralNetwork) (s t v : String) : Prop :=
  s ≠ t ∧ v ≠ s ∧ v ≠ t ∧
    ∃ a b c, DistIs (adjOf g) s v a ∧ DistIs (adjOf g) v t b ∧
      DistIs (adjOf g) s t c ∧ a + b = c

theorem compute_shortest_paths_some {g : ReferralNetwork}
    (hinv : NetInv g) (start t : String) (n : Nat) :
    alistLookup (compute_shortest_paths g start) t = some n ↔
      reachNB (adjOf g) n start t = true := by
  have hav := adj_sub_allNodes g start
  have hspec := bfsDistLoop_spec (adjOf g) (allNodes g start) start hav
    [(start, 0)] [start]
    (by simp)
    (by simp)
    (by
      intro x hx
      simp only [List.mem_singleton] at hx
      subst hx
      simp [alistLookup])
    (by
      intro x m hx
      simp only [alistLookup] at hx
      by_cases hsx : start = x
      · rw [if_pos hsx] at hx
        injection hx with hx
        subst hsx
        rw [← hx]
        simp [reachNB]
      · rw [if_neg hsx] at hx
        exact absurd hx (by simp [alistLookup]))
    (by
      intro x hx hmem
      exfalso
      apply hmem
      simp only [alistLookup] at hx
      by_cases hsx : start = x
      · simp [hsx.symm]
      · rw [if_neg hsx] at hx
        simp [alistLookup] at hx)
  obtain ⟨c1, c2, c3⟩ := hspec
  have hcomplete : ∀ m x, reachNB (adjOf g) m start x = true →
      (alistLookup (compute_shortest_paths g start) x).isSome := by
    intro m
    induction m with
    | zero =>
        intro x hx
        rw [reachNB_zero_iff] at hx
        subst hx
        exact c1 start (by simp [alistLookup])
    | succ k ihk =>
        intro x hx
        obtain ⟨y, hy, hxy⟩ := reachNB_last_decomp hx
        exact c3 y (ihk y hy) x hxy (hav y x hxy)
  constructor
  · intro h
    exact c2 t n h
  · intro h
    have hsome := hcomplete n t h
    cases hl : alistLookup (compute_shortest_paths g start) t with
    | none => rw [hl] at hsome; simp at hsome
    | some m =>
        have hm := c2 t m hl
        rw [forest_reach_length_unique hinv m n start t hm h]

theorem compute_shortest_paths_isSome {g : ReferralNetwork}
    (hinv : NetInv g) (start t : String) :
    (alistLookup (compute_shortest_paths g start) t).isSome ↔
      ∃ n, reachNB (adjOf g) n start t = true := by
  constructor
  · intro h
    cases hl : alistLookup (compute_shortest_paths g start) t with
    | none => rw [hl] at h; simp at h
    | some m => exact ⟨m, (compute_shortest_paths_some hinv start t m).1 hl⟩
  · rintro ⟨n, hn⟩
    rw [(compute_shortest_paths_some hinv start t n).2 hn]
    simp

theorem distIs_iff_lookup {g : ReferralNetwork} (hinv : NetInv g)
    (s t : String) (n : Nat) :
    DistIs (adjOf g) s t n ↔
      alistLookup (compute_shortest_paths g s) t = some n := by
  constructor
  · rintro ⟨h1, -⟩
    exact (compute_shortest_paths_some hinv s t n).2 h1
  · intro h
    have h1 := (compute_shortest_paths_some hinv s t n).1 h
    refine ⟨h1, ?_⟩
    intro k hk
    cases hkb : reachNB (adjOf g) k s t with
    | false => rfl
    | true =>
        rw [forest_reach_length_unique hinv k n s t hkb h1] at hk
        omega

/-- The combined per-triple test executed by the nested loops of
`get_flow_centrality` is exactly the specification's counting condition. -/
theorem flow_triple_iff {g : ReferralNetwork} (hinv : NetInv g)
    (u1 u2 u3 : String) :
    (¬ u1 = u2 ∧
      (alistLookup (compute_shortest_paths g u1) u2).isSome ∧
      ¬ (u3 = u1 ∨ u3 = u2) ∧
      is_on_shortest_path u1 u2 u3 (compute_shortest_paths g u1)
        (compute_shortest_paths g u3) = true) ↔
    FlowCond g u1 u2 u3 := by
  constructor
  · rintro ⟨hne, hsome, hne3, hpath⟩
    push_neg at hne3
    unfold is_on_shortest_path at hpath
    rw [if_neg (by
      push_neg
      exact ⟨hne, fun h => hne3.1 h.symm, fun h => hne3.2 h.symm⟩)] at hpath
    cases hse : alistLookup (compute_shortest_paths g u1) u2 with
    | none => rw [hse] at hpath; simp at hpath
    | some dse =>
        rw [hse] at hpath
        cases hst : alistLookup (compute_shortest_paths g u1) u3 with
        | none => rw [hst] at hpath; simp at hpath
        | some dst =>
            rw [hst] at hpath
            cases hte : alistLookup (compute_shortest_paths g u3) u2 with
            | none => rw [hte] at hpath; simp at hpath
            | some dte =>
                rw [hte] at hpath
                simp only [decide_eq_true_eq] at hpath
                refine ⟨hne, hne3.1, hne3.2, dst, dte, dse,
                  (distIs_iff_lookup hinv u1 u3 dst).2 hst,
                  (distIs_iff_lookup hinv u3 u2 dte).2 hte,
                  (distIs_iff_lookup hinv u1 u2 dse).2 hse, hpath⟩
  · rintro ⟨hne, hvs, hvt, a, b, c, hsv, hvt2, hst, habc⟩
    have hsv' := (distIs_iff_lookup hinv u1 u3 a).1 hsv
    have hvt' := (distIs_iff_lookup hinv u3 u2 b).1 hvt2
    have hst' := (distIs_iff_lookup hinv u1 u2 c).1 hst
    refine ⟨hne, by rw [hst']; simp,
      by push_neg; exact ⟨hvs, hvt⟩, ?_⟩
    unfold is_on_shortest_path
    rw [if_neg (by
      push_neg
      exact ⟨hne, fun h => hvs h.symm, fun h => hvt h.symm⟩)]
    rw [hst', hsv', hvt']
    simp [habc]

/-- The combined boolean test the three nested loops of
`get_flow_centrality` apply to a triple `(u1, u2, u3)`. -/
def flowTestB (g : ReferralNetwork) (u1 u2 u3 : String) : Bool :=
  !(decide (u1 = u2)) &&
    (alistLookup (compute_shortest_paths g u1) u2).isSome &&
    !(decide (u3 = u1 ∨ u3 = u2)) &&
    is_on_shortest_path u1 u2 u3 (compute_shortest_paths g u1)
      (compute_shortest_paths g u3)

/-- All ordered pairs of users, in the order scanned by the two outer
loops of `get_flow_centrality`. -/
def userPairs (g : ReferralNetwork) : List (String × String) :=
  g.users.flatMap (fun s => g.users.map (fun t => (s, t)))

/-- Unfolding the innermost loop: the score of `v` grows by the number of
scanned third users equal to `v` that pass the shortest-path test. -/
theorem flowStep3_fold (g : ReferralNetwork) (u1 u2 : String) :
    ∀ (L : List String) (acc : String → Nat) (v : String),
    (L.foldl (flowStep3 g u1 u2) acc) v =
      acc v + L.countP (fun u3 =>
        (!(decide (u3 = u1 ∨ u3 = u2)) &&
          is_on_shortest_path u1 u2 u3 (compute_shortest_paths g u1)
            (compute_shortest_paths g u3)) && decide (u3 = v)) := by
  intro L
  induction L with
  | nil => intro acc v; simp
  | cons c rest ih =>
      intro acc v
      rw [List.foldl_cons, flowStep3]
      by_cases h1 : c = u1 ∨ c = u2
      · rw [if_pos h1, ih]
        simp [List.countP_cons, h1]
        intro ha hb hio
        rcases h1 with h | h
        · exact absurd h ha
        · exact absurd h hb
      · rw [if_neg h1]
        by_cases h2 : is_on_shortest_path u1 u2 c
            (compute_shortest_paths g u1) (compute_shortest_paths g c) = true
        · rw [if_pos h2, ih]
          by_cases h3 : v = c
          · subst h3
            simp [List.countP_cons, h1, h2]
            have h1p : ¬v = u1 ∧ ¬v = u2 := by tauto
            rw [if_pos h1p]
            omega
          · rw [if_neg h3]
            have hcv : ¬ (c = v) := fun h => h3 h.symm
            simp [List.countP_cons, hcv]
        · rw [if_neg h2, ih]
          simp [List.countP_cons, h2]

/-- Unfolding the middle loop: each scanned target `u2` contributes the
inner-loop count for the pair `(u1, u2)`. -/
theorem flowStep2_fold (g : ReferralNetwork) (u1 : String) :
    ∀ (L : List String) (acc : String → Nat) (v : String),
    (L.foldl (flowStep2 g u1) acc) v =
      acc v + (L.map (fun u2 => g.users.countP (fun u3 =>
        flowTestB g u1 u2 u3 && decide (u3 = v)))).sum := by
  intro L
  induction L with
  | nil => intro acc v; simp
  | cons c rest ih =>
      intro acc v
      rw [List.foldl_cons, flowStep2]
      by_cases h1 : u1 = c
      · rw [if_pos h1, ih]
        have h0 : g.users.countP (fun u3 =>
            flowTestB g u1 c u3 && decide (u3 = v)) = 0 :=
          List.countP_eq_zero.2 (fun x _ => by simp [flowTestB, h1])
        simp [h0]
      · rw [if_neg h1]
        by_cases h2 : (alistLookup (compute_shortest_paths g u1) c).isSome
        · rw [if_pos h2, ih, flowStep3_fold]
          have hc : g.users.countP (fun u3 =>
              (!(decide (u3 = u1 ∨ u3 = c)) &&
                is_on_shortest_path u1 c u3 (compute_shortest_paths g u1)
                  (compute_shortest_paths g u3)) && decide (u3 = v)) =
              g.users.countP (fun u3 =>
                flowTestB g u1 c u3 && decide (u3 = v)) := by
            refine List.countP_congr (fun x _ => ?_)
            simp [flowTestB, h1, h2, and_assoc]
          rw [hc]
          simp [Nat.add_assoc, Nat.add_comm]
        · rw [if_neg h2, ih]
          have h0 : g.users.countP (fun u3 =>
              flowTestB g u1 c u3 && decide (u3 = v)) = 0 :=
            List.countP_eq_zero.2 (fun x _ => by
              simp only [flowTestB, Bool.and_eq_true, Bool.not_eq_true',
                decide_eq_false_iff_not, decide_eq_true_eq]
              intro hx
              exact h2 (by tauto))
          simp [h0]

/-- Unfolding the outer loop: the score of `v` is the double sum of the
inner counts over all scanned source users. -/
theorem flowStep1_fold (g : ReferralNetwork) :
    ∀ (L : List String) (acc : String → Nat) (v : String),
    (L.foldl (flowStep1 g) acc) v =
      acc v + (L.map (fun u1 => ((g.users.map (fun u2 =>
        g.users.countP (fun u3 =>
          flowTestB g u1 u2 u3 && decide (u3 = v)))).sum))).sum := by
  intro L
  induction L with
  | nil => intro acc v; simp
  | cons c rest ih =>
      intro acc v
      rw [List.foldl_cons, flowStep1, ih, flowStep2_fold]
      simp [Nat.add_assoc]

/-- Over a duplicate-free list containing `v`, counting elements equal to
`v` that pass a test is just testing `v`. -/
theorem countP_and_eq_self {l : List String} (hnd : l.Nodup) {v : String}
    (hv : v ∈ l) (b : String → Bool) :
    l.countP (fun x => b x && decide (x = v)) = if b v then 1 else 0 := by
  induction l with
  | nil => cases hv
  | cons c rest ih =>
      rw [List.countP_cons]
      rcases List.mem_cons.1 hv with hvc | hvr
      · have hnotin : v ∉ rest := by
          rw [hvc]
          exact (List.nodup_cons.1 hnd).1
        have h0 : rest.countP (fun x => b x && decide (x = v)) = 0 :=
          List.countP_eq_zero.2 (fun x hx => by
            simp only [Bool.and_eq_true, decide_eq_true_eq]
            rintro ⟨-, rfl⟩
            exact hnotin hx)
        rw [h0, ← hvc]
        simp
      · have hcv : ¬ (c = v) := fun h =>
          (List.nodup_cons.1 hnd).1 (h ▸ hvr)
        rw [ih (List.nodup_cons.1 hnd).2 hvr]
        simp [hcv]

/-- Counting over a flat map is the sum of the per-block counts. -/
theorem countP_flatMap {α β : Type} (L : List α) (f : α → List β)
    (p : β → Bool) :
    (L.flatMap f).countP p = (L.map (fun a => (f a).countP p)).sum := by
  induction L with
  | nil => rfl
  | cons c rest ih => simp [List.flatMap_cons, List.countP_append, ih]

/-- A sum of indicator values is a count. -/
theorem sum_map_ite_eq_countP {α : Type} (l : List α) (q : α → Bool) :
    (l.map (fun x => if q x then 1 else 0)).sum = l.countP q := by
  induction l with
  | nil => rfl
  | cons c rest ih =>
      rw [List.map_cons, List.sum_cons, List.countP_cons, ih]
      omega

/-- The accumulated score of a user `v` is the number of ordered pairs of
users passing the per-triple test with `v` as the middle node. -/
theorem flow_scores_eq (g : ReferralNetwork) (hnd : g.users.Nodup)
    (v : String) (hv : v ∈ g.users) :
    (g.users.foldl (flowStep1 g) (fun _ => (0 : Nat))) v =
      (userPairs g).countP (fun q => flowTestB g q.1 q.2 v) := by
  rw [flowStep1_fold, userPairs, countP_flatMap]
  simp only [Nat.zero_add]
  refine congrArg List.sum (List.map_congr_left (fun u1 _ => ?_))
  rw [List.countP_map]
  have hinner : (g.users.map (fun u2 => g.users.countP (fun u3 =>
      flowTestB g u1 u2 u3 && decide (u3 = v)))) =
      g.users.map (fun u2 => if flowTestB g u1 u2 v then 1 else 0) :=
    List.map_congr_left (fun u2 _ => countP_and_eq_self hnd hv _)
  rw [hinner, sum_map_ite_eq_countP]
  rfl

/-- The per-triple boolean test coincides with the specification
condition `FlowCond` on forest stores. -/
theorem flowTestB_iff {g : ReferralNetwork} (hinv : NetInv g)
    (u1 u2 u3 : String) :
    flowTestB g u1 u2 u3 = true ↔ FlowCond g u1 u2 u3 := by
  rw [← flow_triple_iff hinv u1 u2 u3]
  simp [flowTestB, and_assoc]

/-- The two-edge history `A → B → C` evaluated to its store. -/
theorem runOps_chainABC : runOps [("A", "B"), ("B", "C")] =
    { referrals := [("C", "B"), ("B", "A")],
      reverse_referrals := [("A", ["B"]), ("B", ["C"])],
      users := ["A", "B", "C"] } := by
  simp [runOps, add_referral, would_create_cycle, dfsLoop, adjOf, allNodes,
    emptyNetwork, alistLookup, revInsert, userAdd]

/-- `get_flow_centrality` evaluated on the chain store: `B` scores 1 (it
sits on the shortest `A → C` path), `A` and `C` score 0. -/
theorem flow_chain_eval :
    get_flow_centrality (runOps [("A", "B"), ("B", "C")]) =
      [("B", 1), ("A", 0), ("C", 0)] := by
  rw [runOps_chainABC]
  simp [get_flow_centrality, flowStep1, flowStep2, flowStep3,
    compute_shortest_paths, bfsDistLoop, distChildren, is_on_shortest_path,
    adjOf, allNodes, alistLookup, List.mergeSort]

/-- C6: on every reachable store, `get_flow_centrality` returns `[]` when
there are fewer than 3 users; with at least 3 users it returns, up to the
descending sort, every user `v` paired with the number of ordered pairs
`(s, t)` of users satisfying the shortest-path condition `FlowCond` with
`v` as middle node; and on the chain `A → B → C` it returns
`[("B", 1), ("A", 0), ("C", 0)]`. -/
theorem c6_flow_centrality (ops : List (String × String)) :
    ((runOps ops).users.length < 3 →
      get_flow_centrality (runOps ops) = []) ∧
    (3 ≤ (runOps ops).users.length →
      (get_flow_centrality (runOps ops)).Perm
        ((runOps ops).users.map (fun v => (v,
          (userPairs (runOps ops)).countP
            (fun q => @decide (FlowCond (runOps ops) q.1 q.2 v)
              (Classical.propDecidable _)))))) ∧
    get_flow_centrality (runOps [("A", "B"), ("B", "C")]) =
      [("B", 1), ("A", 0), ("C", 0)] := by
  refine ⟨?_, ?_, flow_chain_eval⟩
  · intro hlen
    unfold get_flow_centrality
    rw [if_pos hlen]
  · intro hlen
    have hinv := netInv_runOps ops
    have hnd := hinv.usersNodup
    unfold get_flow_centrality
    rw [if_neg (by omega)]
    simp only []
    have hmap : (runOps ops).users.map (fun u => (u,
        (runOps ops).users.foldl (flowStep1 (runOps ops))
          (fun _ => (0 : Nat)) u)) =
        (runOps ops).users.map (fun v => (v,
          (userPairs (runOps ops)).countP
            (fun q => @decide (FlowCond (runOps ops) q.1 q.2 v)
              (Classical.propDecidable _)))) := by
      refine List.map_congr_left (fun v hv => ?_)
      rw [flow_scores_eq (runOps ops) hnd v hv]
      congr 1
      refine List.countP_congr (fun q _ => ?_)
      constructor
      · intro h
        exact @decide_eq_true _ (Classical.propDecidable _)
          ((flowTestB_iff hinv _ _ _).1 h)
      · intro h
        exact (flowTestB_iff hinv _ _ _).2
          (@of_decide_eq_true _ (Classical.propDecidable _) h)
    rw [hmap]
    exact List.mergeSort_perm _ _

/-- Witness for C6: the empty store has fewer than 3 users and yields
`[]`; the chain store has 3 users and its centrality list matches the
pair counts. -/
theorem c6_flow_centrality_witness :
    ((runOps []).users.length < 3 ∧ get_flow_centrality (runOps []) = []) ∧
    (3 ≤ (runOps [("A", "B"), ("B", "C")]).users.length ∧
      (get_flow_centrality (runOps [("A", "B"), ("B", "C")])).Perm
        ((runOps [("A", "B"), ("B", "C")]).users.map (fun v => (v,
          (userPairs (runOps [("A", "B"), ("B", "C")])).countP
            (fun q => @decide
              (FlowCond (runOps [("A", "B"), ("B", "C")]) q.1 q.2 v)
              (Classical.propDecidable _)))))) :=
  ⟨⟨by decide, (c6_flow_centrality []).1 (by decide)⟩,
   ⟨by rw [runOps_chainABC]; decide,
    (c6_flow_centrality [("A", "B"), ("B", "C")]).2.1
      (by rw [runOps_chainABC]; decide)⟩⟩

end Mercor
